import Mathlib

/-!
Shallow embedding of the AA-tree dictionary of src/src/onion/dict.c
(onion HTTP server library), together with proofs about its operations.

Modelling conventions:
* C strings (the keys and values) are byte strings, modelled as `List Nat`
  (the bytes before the NUL terminator).  `strcmp` is modelled as the
  three-way lexicographic comparison; C guarantees only the sign of its
  result, which is what every call site of dict.c consumes.
* Heap pointers and in-place mutation are modelled functionally: every
  C function that rewrites links returns the new subtree root, exactly as
  the source functions do.  `free` of key/value memory is modelled by
  returning the list of released byte strings (in release order); memory
  is identified by its contents, so distinctness hypotheses on contents
  play the role of non-aliasing of allocations.
* `onion_dict` (from types_internal.h, not part of the sources) holds the
  root node pointer, which is the only field dict.c uses.
* The `OD_*` ownership-flag constants live in dict.h, which is not part of
  the sources.  Modelled from the spec: four independent flag bits, the
  duplicate flags containing the corresponding free flag (dict.c's comment
  "its a multiple bit flag, with FREE included").
-/

namespace Onion

/-- Byte strings: the contents of a C string without its NUL terminator. -/
abbrev CStr := List Nat

/-- Three-way lexicographic byte comparison: the sign of C `strcmp`. -/
def strcmp : CStr → CStr → Ordering
  | [], [] => .eq
  | [], _ :: _ => .lt
  | _ :: _, [] => .gt
  | a :: as, b :: bs =>
    if a < b then .lt else if b < a then .gt else strcmp as bs

/-- Modelled from the spec (dict.h is not in the sources): ownership flag,
free the key at node destruction. -/
def OD_FREE_KEY : Nat := 1

/-- Modelled from the spec (dict.h is not in the sources): ownership flag,
free the value at node destruction. -/
def OD_FREE_VALUE : Nat := 2

/-- Modelled from the spec (dict.h is not in the sources): duplicate the key
at insertion; a multiple-bit flag that includes OD_FREE_KEY. -/
def OD_DUP_KEY : Nat := 4 ||| OD_FREE_KEY

/-- Modelled from the spec (dict.h is not in the sources): duplicate the value
at insertion; a multiple-bit flag that includes OD_FREE_VALUE. -/
def OD_DUP_VALUE : Nat := 8 ||| OD_FREE_VALUE

/-- struct onion_dict_node_data: key pointer, value pointer, ownership flags. -/
structure onion_dict_node_data where
  key : CStr
  value : CStr
  flags : Nat
deriving DecidableEq, Repr

/-- struct onion_dict_node: an AA-tree node, or NULL. -/
inductive onion_dict_node where
  | nil
  | node (data : onion_dict_node_data) (level : Nat)
      (left right : onion_dict_node)
deriving DecidableEq, Repr

/-- struct onion_dict: the container handle; it owns the root node. -/
structure onion_dict where
  root : onion_dict_node
deriving DecidableEq, Repr

namespace onion_dict_node

/-- Level of a node; a NULL pointer counts as level 0. -/
def lvl : onion_dict_node → Nat
  | .nil => 0
  | .node _ k _ _ => k

/-- The right child of a node (NULL for a NULL node). -/
def rightT : onion_dict_node → onion_dict_node
  | .nil => .nil
  | .node _ _ _ r => r

/-- Level of the right child. -/
def rlvl (t : onion_dict_node) : Nat := (rightT t).lvl

/-- Number of nodes of a subtree. -/
def size : onion_dict_node → Nat
  | .nil => 0
  | .node _ _ l r => size l + size r + 1

/-- In-order list of the node data entries of a subtree. -/
def entries : onion_dict_node → List onion_dict_node_data
  | .nil => []
  | .node d _ l r => entries l ++ d :: entries r

/-- In-order list of the keys of a subtree. -/
def keysOf (t : onion_dict_node) : List CStr :=
  (entries t).map onion_dict_node_data.key

end onion_dict_node

open onion_dict_node

open scoped List

/-- onion_dict_new: the container starts empty (root = NULL). -/
def onion_dict_new : onion_dict := ⟨.nil⟩

/-- onion_dict_set_node_data: fill a node data record.  With OD_DUP_KEY /
OD_DUP_VALUE the C code stores a strdup'ed private copy, otherwise the
caller's pointer; either way the stored bytes are the argument bytes. -/
def onion_dict_set_node_data (key value : CStr) (flags : Nat) :
    onion_dict_node_data :=
  { key := key, value := value, flags := flags }

/-- onion_dict_node_new: allocate a fresh node: level 1, NULL children. -/
def onion_dict_node_new (key value : CStr) (flags : Nat) : onion_dict_node :=
  .node (onion_dict_set_node_data key value flags) 1 .nil .nil

/-- skew: right rotation when the left child shares the node's level. -/
def skew : onion_dict_node → onion_dict_node
  | .nil => .nil
  | .node d k l r =>
    match l with
    | .nil => .node d k .nil r
    | .node dl kl ll lr =>
      if kl ≠ k then .node d k (.node dl kl ll lr) r
      else .node dl kl ll (.node d k lr r)

/-- split: left rotation with level promotion when the right grandchild
shares the node's level. -/
def split : onion_dict_node → onion_dict_node
  | .nil => .nil
  | .node d k l r =>
    match r with
    | .nil => .node d k l .nil
    | .node dr kr rl rr =>
      match rr with
      | .nil => .node d k l (.node dr kr rl .nil)
      | .node drr krr rrl rrr =>
        if k ≠ krr then .node d k l (.node dr kr rl (.node drr krr rrl rrr))
        else .node dr (kr + 1) (.node d k l rl) (.node drr krr rrl rrr)

/-- decrease_level: drop the node's level to one more than the minimum of
its children's levels, clamping the right child's level down to match.
The C function is only ever called with a non-NULL node; the NULL case is
the identity to make the function total. -/
def decrease_level : onion_dict_node → onion_dict_node
  | .nil => .nil
  | .node d k l r =>
    let level_left := lvl l
    let level_right := lvl r
    let should_be := (if level_left < level_right then level_left
                      else level_right) + 1
    if should_be < k then
      let r' := match r with
        | .nil => onion_dict_node.nil
        | .node dr kr rl rr =>
          if should_be < kr then .node dr should_be rl rr
          else .node dr kr rl rr
      .node d should_be l r'
    else .node d k l r

/-- onion_dict_node_add: AA-tree insertion.  The second argument is the data
of the freshly allocated node passed in by onion_dict_add (always the result
of onion_dict_node_new, i.e. a level-1 node with NULL children); placing it
at a NULL link is C's `return nnode`. -/
def onion_dict_node_add (t : onion_dict_node) (nd : onion_dict_node_data) :
    onion_dict_node :=
  match t with
  | .nil => .node nd 1 .nil .nil
  | .node d k l r =>
    let t' := match strcmp nd.key d.key with
      | .lt => onion_dict_node.node d k (onion_dict_node_add l nd) r
      | _ => onion_dict_node.node d k l (onion_dict_node_add r nd)
    split (skew t')

/-- onion_dict_add: insert a (key, value, flags) entry into the container. -/
def onion_dict_add (dict : onion_dict) (key value : CStr) (flags : Nat) :
    onion_dict :=
  ⟨onion_dict_node_add dict.root (onion_dict_set_node_data key value flags)⟩

/-- onion_dict_node_data_free: the byte strings released by the per-flag
free routine, in release order. -/
def onion_dict_node_data_free (d : onion_dict_node_data) : List CStr :=
  (if d.flags &&& OD_FREE_KEY ≠ 0 then [d.key] else []) ++
  (if d.flags &&& OD_FREE_VALUE ≠ 0 then [d.value] else [])

/-- Data of the leftmost node of the subtree rooted at a node with data d
and left child l: C's `t = node->right; while (t->left) t = t->left;`. -/
def leftmostData : onion_dict_node_data → onion_dict_node →
    onion_dict_node_data
  | d, .nil => d
  | _, .node d' _ l' _ => leftmostData d' l'

/-- Data of the rightmost node of the subtree rooted at a node with data d
and right child r: C's `t = node->left; while (t->right) t = t->right;`. -/
def rightmostData : onion_dict_node_data → onion_dict_node →
    onion_dict_node_data
  | d, .nil => d
  | _, .node d' _ _ r' => rightmostData d' r'

/-- Clear the ownership flags of the leftmost node of a subtree
(C's `t->data.flags = 0` applied through the tree structure). -/
def clearLeftmostFlags : onion_dict_node → onion_dict_node
  | .nil => .nil
  | .node d k l r =>
    match l with
    | .nil => .node { d with flags := 0 } k .nil r
    | .node .. => .node d k (clearLeftmostFlags l) r

/-- Clear the ownership flags of the rightmost node of a subtree. -/
def clearRightmostFlags : onion_dict_node → onion_dict_node
  | .nil => .nil
  | .node d k l r =>
    match r with
    | .nil => .node { d with flags := 0 } k l .nil
    | .node .. => .node d k l (clearRightmostFlags r)

/-- C's `node->right = skew(node->right)` (with its NULL guard: skew of
NULL is NULL). -/
def skew_right : onion_dict_node → onion_dict_node
  | .nil => .nil
  | .node d k l r => .node d k l (skew r)

/-- C's `node->right->right = skew(node->right->right)` (with NULL guards). -/
def skew_right_right : onion_dict_node → onion_dict_node
  | .nil => .nil
  | .node d k l r => .node d k l (skew_right r)

/-- C's `node->right = split(node->right)` (with its NULL guard). -/
def split_right : onion_dict_node → onion_dict_node
  | .nil => .nil
  | .node d k l r => .node d k l (split r)

/-- The rebalancing block at the end of onion_dict_node_remove:
decrease_level, skew on the node, its right child and that child's right
child, then split on the node and its right child. -/
def remove_fixup (t : onion_dict_node) : onion_dict_node :=
  split_right (split (skew_right_right (skew_right (skew
    (decrease_level t)))))

/-- onion_dict_node_remove: AA-tree removal.  Returns the new subtree root
together with the list of byte strings released by
onion_dict_node_data_free, in release order.  On an exact match with one or
two children the in-order successor's (resp. predecessor's) data is copied
into the current node, the donor's flags are cleared, and the donor's key is
removed from the subtree recursively. -/
def onion_dict_node_remove : onion_dict_node → CStr →
    onion_dict_node × List CStr
  | .nil, _ => (.nil, [])
  | .node d k l r, key =>
    match strcmp key d.key with
    | .lt =>
      let p := onion_dict_node_remove l key
      (remove_fixup (.node d k p.1 r), p.2)
    | .gt =>
      let p := onion_dict_node_remove r key
      (remove_fixup (.node d k l p.1), p.2)
    | .eq =>
      let freed := onion_dict_node_data_free d
      match l, r with
      | .nil, .nil => (.nil, freed)
      | .nil, .node dr kr rl rr =>
        let td := leftmostData dr rl
        let p := onion_dict_node_remove
          (clearLeftmostFlags (.node dr kr rl rr)) td.key
        (remove_fixup (.node td k .nil p.1), freed ++ p.2)
      | .node dl kl ll lr, _ =>
        let td := rightmostData dl lr
        let p := onion_dict_node_remove
          (clearRightmostFlags (.node dl kl ll lr)) td.key
        (remove_fixup (.node td k p.1 r), freed ++ p.2)
  termination_by t _ => size t
  decreasing_by
  all_goals
    have hL : ∀ t : onion_dict_node, size (clearLeftmostFlags t) = size t := by
      intro t
      induction t with
      | nil => rfl
      | node d k l r ihl ihr =>
        cases l with
        | nil => simp [clearLeftmostFlags, size]
        | node dl kl ll lr =>
          rw [show clearLeftmostFlags (.node d k (.node dl kl ll lr) r) =
            .node d k (clearLeftmostFlags (.node dl kl ll lr)) r from rfl]
          simp only [size, ihl]
    have hR : ∀ t : onion_dict_node, size (clearRightmostFlags t) = size t := by
      intro t
      induction t with
      | nil => rfl
      | node d k l r ihl ihr =>
        cases r with
        | nil => simp [clearRightmostFlags, size]
        | node dr kr rl rr =>
          rw [show clearRightmostFlags (.node d k l (.node dr kr rl rr)) =
            .node d k l (clearRightmostFlags (.node dr kr rl rr)) from rfl]
          simp only [size, ihr]
    simp only [size, hL, hR]
  all_goals omega

/-- onion_dict_remove: remove one node matching the key; returns the updated
container, the released byte strings, and the C return code, which is
unconditionally 1. -/
def onion_dict_remove (dict : onion_dict) (key : CStr) :
    onion_dict × List CStr × Int :=
  let p := onion_dict_node_remove dict.root key
  (⟨p.1⟩, p.2, 1)

/-- onion_dict_find_node: BST descent by strcmp.  The parent out-parameter
(passed as NULL by every operation in dict.c) is omitted. -/
def onion_dict_find_node : onion_dict_node → CStr →
    Option onion_dict_node_data
  | .nil, _ => none
  | .node d _ l r, key =>
    match strcmp key d.key with
    | .eq => some d
    | .lt => onion_dict_find_node l key
    | .gt => onion_dict_find_node r key

/-- onion_dict_get: the stored value on an exact match, NULL otherwise. -/
def onion_dict_get (dict : onion_dict) (key : CStr) : Option CStr :=
  match onion_dict_find_node dict.root key with
  | some d => some d.value
  | none => none

/-- onion_dict_node_count: nodes of a subtree.  C only calls it on non-NULL
nodes; the NULL case makes the equations total. -/
def onion_dict_node_count : onion_dict_node → Nat
  | .nil => 0
  | .node _ _ l r => 1 + onion_dict_node_count l + onion_dict_node_count r

/-- onion_dict_count: number of entries of the container. -/
def onion_dict_count (dict : onion_dict) : Nat :=
  match dict.root with
  | .nil => 0
  | t => onion_dict_node_count t

/-- onion_dict_node_preorder: the in-order (left, node, right) sequence of
(key, value) pairs the caller-supplied visitor is invoked with. -/
def onion_dict_node_preorder : onion_dict_node → List (CStr × CStr)
  | .nil => []
  | .node d _ l r =>
    onion_dict_node_preorder l ++ [(d.key, d.value)] ++
      onion_dict_node_preorder r

/-- onion_dict_preorder: visitor invocations for the whole container;
no invocation on a NULL or empty container. -/
def onion_dict_preorder (dict : onion_dict) : List (CStr × CStr) :=
  match dict.root with
  | .nil => []
  | t => onion_dict_node_preorder t

/-! ### Specification-side definitions: key order, invariants, observations -/

/-- Non-strict key order, as consumed by the BST property: not greater. -/
def keyLe (a b : CStr) : Prop := strcmp a b ≠ .gt

/-- Strict key order. -/
def keyLt (a b : CStr) : Prop := strcmp a b = .lt

instance (a b : CStr) : Decidable (keyLe a b) := by unfold keyLe; infer_instance

instance (a b : CStr) : Decidable (keyLt a b) := by unfold keyLt; infer_instance

namespace onion_dict_node

/-- The AA-tree level invariants as stated in the spec: left child exactly one
level below, right child at most one level below, no two consecutive
horizontal right links (a leaf therefore has level 1, and NULL level 0). -/
def invar : onion_dict_node → Prop
  | .nil => True
  | .node _ k l r =>
    invar l ∧ invar r ∧ k = lvl l + 1 ∧
      (k = lvl r + 1 ∨ (k = lvl r ∧ k = rlvl r + 1))

/-- A node whose right link is not horizontal (Andersson's "single" shape). -/
def sngl : onion_dict_node → Prop
  | .nil => False
  | .node _ k _ r => lvl r < k

/-- The weak binary-search-tree property that the code maintains: keys of the
left subtree are less-or-equal, keys of the right subtree greater-or-equal. -/
def WBST : onion_dict_node → Prop
  | .nil => True
  | .node d _ l r =>
    WBST l ∧ WBST r ∧ (∀ x ∈ keysOf l, keyLe x d.key) ∧
      (∀ x ∈ keysOf r, keyLe d.key x)

/-- The strict binary-search-tree property as claim C1 states it: keys of the
left subtree strictly less, keys of the right subtree greater-or-equal. -/
def SBST : onion_dict_node → Prop
  | .nil => True
  | .node d _ l r =>
    SBST l ∧ SBST r ∧ (∀ x ∈ keysOf l, keyLt x d.key) ∧
      (∀ x ∈ keysOf r, keyLe d.key x)

def invarDec : (t : onion_dict_node) → Decidable (invar t)
  | .nil => .isTrue trivial
  | .node d k l r =>
    have hl : Decidable (invar l) := invarDec l
    have hr : Decidable (invar r) := invarDec r
    show Decidable (invar l ∧ invar r ∧ k = lvl l + 1 ∧
      (k = lvl r + 1 ∨ (k = lvl r ∧ k = rlvl r + 1))) from inferInstance

instance : ∀ t : onion_dict_node, Decidable (invar t) := invarDec

def snglDec : (t : onion_dict_node) → Decidable (sngl t)
  | .nil => .isFalse id
  | .node _ k _ r => show Decidable (lvl r < k) from inferInstance

instance : ∀ t : onion_dict_node, Decidable (sngl t) := snglDec

def wbstDec : (t : onion_dict_node) → Decidable (WBST t)
  | .nil => .isTrue trivial
  | .node d _ l r =>
    have hl : Decidable (WBST l) := wbstDec l
    have hr : Decidable (WBST r) := wbstDec r
    show Decidable (WBST l ∧ WBST r ∧ (∀ x ∈ keysOf l, keyLe x d.key) ∧
      (∀ x ∈ keysOf r, keyLe d.key x)) from inferInstance

instance : ∀ t : onion_dict_node, Decidable (WBST t) := wbstDec

def sbstDec : (t : onion_dict_node) → Decidable (SBST t)
  | .nil => .isTrue trivial
  | .node d _ l r =>
    have hl : Decidable (SBST l) := sbstDec l
    have hr : Decidable (SBST r) := sbstDec r
    show Decidable (SBST l ∧ SBST r ∧ (∀ x ∈ keysOf l, keyLt x d.key) ∧
      (∀ x ∈ keysOf r, keyLe d.key x)) from inferInstance

instance : ∀ t : onion_dict_node, Decidable (SBST t) := sbstDec

/-- Replace the stored level of the root node of a subtree. -/
def withLevel : onion_dict_node → Nat → onion_dict_node
  | .nil, _ => .nil
  | .node d _ l r, n => .node d n l r

/-- All byte strings the per-flag free routine would release when the whole
subtree is torn down: the freeable memory of the tree. -/
def freeables (t : onion_dict_node) : List CStr :=
  (entries t).flatMap onion_dict_node_data_free

end onion_dict_node

/-- A public mutating operation of the container. -/
inductive dict_op where
  | add (key value : CStr) (flags : Nat)
  | remove (key : CStr)

/-- Apply one public operation to the container. -/
def run_op (d : onion_dict) : dict_op → onion_dict
  | .add key value flags => onion_dict_add d key value flags
  | .remove key => (onion_dict_remove d key).1

/-- Run a sequence of public operations starting from the empty container. -/
def run_ops (ops : List dict_op) : onion_dict :=
  ops.foldl run_op onion_dict_new

/-! ### Order properties of strcmp -/

theorem strcmp_self : ∀ a : CStr, strcmp a a = .eq
  | [] => rfl
  | x :: xs => by simp [strcmp, strcmp_self xs]

theorem eq_of_strcmp_eq : ∀ {a b : CStr}, strcmp a b = .eq → a = b
  | [], [], _ => rfl
  | [], _ :: _, h => by simp [strcmp] at h
  | _ :: _, [], h => by simp [strcmp] at h
  | x :: xs, y :: ys, h => by
    by_cases h1 : x < y
    · simp [strcmp, h1] at h
    · by_cases h2 : y < x
      · simp [strcmp, h1, h2] at h
      · have hxy : x = y := by omega
        simp only [strcmp, if_neg h1, if_neg h2] at h
        simp [hxy, eq_of_strcmp_eq h]

theorem strcmp_eq_iff {a b : CStr} : strcmp a b = .eq ↔ a = b :=
  ⟨eq_of_strcmp_eq, fun h => h ▸ strcmp_self a⟩

theorem strcmp_swap : ∀ a b : CStr, strcmp b a = (strcmp a b).swap
  | [], [] => rfl
  | [], _ :: _ => rfl
  | _ :: _, [] => rfl
  | x :: xs, y :: ys => by
    by_cases h1 : x < y
    · have h2 : ¬ y < x := by omega
      simp [strcmp, h1, h2, Ordering.swap]
    · by_cases h2 : y < x
      · simp [strcmp, h1, h2, Ordering.swap]
      · simp [strcmp, h1, h2, strcmp_swap xs ys]

theorem strcmp_gt_iff {a b : CStr} : strcmp a b = .gt ↔ strcmp b a = .lt := by
  rw [strcmp_swap a b]
  cases strcmp a b <;> simp [Ordering.swap]

theorem strcmp_lt_trans : ∀ {a b c : CStr},
    strcmp a b = .lt → strcmp b c = .lt → strcmp a c = .lt
  | [], [], _, h1, _ => by simp [strcmp] at h1
  | [], _ :: _, [], _, h2 => by simp [strcmp] at h2
  | [], _ :: _, _ :: _, _, _ => rfl
  | _ :: _, [], _, h1, _ => by simp [strcmp] at h1
  | _ :: _, _ :: _, [], _, h2 => by simp [strcmp] at h2
  | x :: xs, y :: ys, z :: zs, h1, h2 => by
    simp only [strcmp] at h1 h2 ⊢
    by_cases hxy : x < y
    · have hzy : ¬ z < y := by
        intro hzy
        have hyz : ¬ y < z := by omega
        simp [if_neg hyz, if_pos hzy] at h2
      have hxz : x < z := by omega
      simp [hxz]
    · by_cases hyx : y < x
      · simp [if_pos hyx, if_neg hxy] at h1
      · have hxy' : x = y := by omega
        subst hxy'
        simp only [if_neg hxy, if_neg hyx] at h1
        by_cases hyz : x < z
        · simp [hyz]
        · by_cases hzy : z < x
          · simp [if_neg hyz, if_pos hzy] at h2
          · simp only [if_neg hyz, if_neg hzy] at h2 ⊢
            exact strcmp_lt_trans h1 h2

theorem keyLe_refl (a : CStr) : keyLe a a := by
  simp [keyLe, strcmp_self]

theorem keyLe_of_lt {a b : CStr} (h : strcmp a b = .lt) : keyLe a b := by
  simp [keyLe, h]

theorem keyLe_of_eq {a b : CStr} (h : a = b) : keyLe a b := h ▸ keyLe_refl a

theorem keyLe_trans {a b c : CStr} (h1 : keyLe a b) (h2 : keyLe b c) :
    keyLe a c := by
  unfold keyLe at *
  cases hab : strcmp a b with
  | gt => exact absurd hab h1
  | eq => exact eq_of_strcmp_eq hab ▸ h2
  | lt =>
    cases hbc : strcmp b c with
    | gt => exact absurd hbc h2
    | eq => rw [← eq_of_strcmp_eq hbc]; simp [hab]
    | lt => simp [strcmp_lt_trans hab hbc]

theorem not_keyLe_of_lt {a b : CStr} (h : strcmp a b = .lt) : ¬ keyLe b a := by
  simp [keyLe, strcmp_gt_iff, h]

/-! ### Basic facts about the tree observations -/

namespace onion_dict_node

@[simp] theorem lvl_nil : lvl .nil = 0 := rfl

@[simp] theorem lvl_node (d k l r) : lvl (.node d k l r) = k := rfl

@[simp] theorem rightT_nil : rightT .nil = .nil := rfl

@[simp] theorem rightT_node (d k l r) : rightT (.node d k l r) = r := rfl

@[simp] theorem rlvl_nil : rlvl .nil = 0 := rfl

@[simp] theorem rlvl_node (d k l r) : rlvl (.node d k l r) = lvl r := rfl

@[simp] theorem entries_nil : entries .nil = [] := rfl

@[simp] theorem entries_node (d k l r) :
    entries (.node d k l r) = entries l ++ d :: entries r := rfl

@[simp] theorem keysOf_nil : keysOf .nil = [] := rfl

@[simp] theorem keysOf_node (d k l r) :
    keysOf (.node d k l r) =
      keysOf l ++ d.key :: keysOf r := by
  simp [keysOf]

@[simp] theorem invar_nil : invar .nil := trivial

theorem invar_node_iff {d k l r} :
    invar (.node d k l r) ↔
      invar l ∧ invar r ∧ k = lvl l + 1 ∧
        (k = lvl r + 1 ∨ (k = lvl r ∧ k = rlvl r + 1)) := Iff.rfl

theorem lvl_eq_zero_iff : ∀ {t : onion_dict_node}, invar t →
    (lvl t = 0 ↔ t = .nil)
  | .nil, _ => by simp
  | .node d k l r, h => by
    rcases h with ⟨-, -, hk, -⟩
    simp [hk]

theorem lvl_pos_node {t : onion_dict_node} (h : 0 < lvl t) :
    ∃ d l r, t = .node d (lvl t) l r := by
  cases t with
  | nil => simp at h
  | node d k l r => exact ⟨d, l, r, rfl⟩

@[simp] theorem wbst_nil : WBST .nil := trivial

theorem wbst_node_iff {d k l r} :
    WBST (.node d k l r) ↔
      WBST l ∧ WBST r ∧ (∀ x ∈ keysOf l, keyLe x d.key) ∧
        (∀ x ∈ keysOf r, keyLe d.key x) := Iff.rfl

@[simp] theorem sngl_node (d k l r) : sngl (.node d k l r) ↔ lvl r < k :=
  Iff.rfl

/-! ### The balancing primitives preserve the in-order entry sequence -/

theorem entries_skew : ∀ t : onion_dict_node, entries (skew t) = entries t
  | .nil => rfl
  | .node d k .nil r => by simp [skew]
  | .node d k (.node dl kl ll lr) r => by
    by_cases h : kl = k <;> simp [skew, h]

theorem entries_split : ∀ t : onion_dict_node, entries (split t) = entries t
  | .nil => rfl
  | .node d k l .nil => by simp [split]
  | .node d k l (.node dr kr rl .nil) => by simp [split]
  | .node d k l (.node dr kr rl (.node drr krr rrl rrr)) => by
    by_cases h : k = krr <;> simp [split, h]

theorem entries_decrease_level : ∀ t : onion_dict_node,
    entries (decrease_level t) = entries t
  | .nil => rfl
  | .node d k l r => by
    cases r with
    | nil =>
      simp only [decrease_level]
      split <;> split <;> simp
    | node dr kr rl rr =>
      simp only [decrease_level]
      split <;> split
      all_goals try split
      all_goals simp

theorem entries_skew_right : ∀ t : onion_dict_node,
    entries (skew_right t) = entries t
  | .nil => rfl
  | .node d k l r => by simp [skew_right, entries_skew]

theorem entries_skew_right_right : ∀ t : onion_dict_node,
    entries (skew_right_right t) = entries t
  | .nil => rfl
  | .node d k l r => by simp [skew_right_right, entries_skew_right]

theorem entries_split_right : ∀ t : onion_dict_node,
    entries (split_right t) = entries t
  | .nil => rfl
  | .node d k l r => by simp [split_right, entries_split]

theorem entries_remove_fixup (t : onion_dict_node) :
    entries (remove_fixup t) = entries t := by
  unfold remove_fixup
  rw [entries_split_right, entries_split, entries_skew_right_right,
    entries_skew_right, entries_skew, entries_decrease_level]

/-! ### Rewrite rules for skew and split, and identity on valid trees -/

theorem skew_eq_of_lvl_ne {d k} {l r : onion_dict_node} (h : lvl l ≠ k) :
    skew (.node d k l r) = .node d k l r := by
  cases l with
  | nil => simp [skew]
  | node dl kl ll lr =>
    have hkl : kl ≠ k := by simpa using h
    simp [skew, hkl]

theorem skew_go {d k} {l r : onion_dict_node} (h : lvl l = k) (hk : 0 < k) :
    ∃ dl ll lr, l = .node dl k ll lr ∧
      skew (.node d k l r) = .node dl k ll (.node d k lr r) := by
  cases l with
  | nil => simp at h; omega
  | node dl kl ll lr =>
    have hkl : kl = k := by simpa using h
    subst hkl
    exact ⟨dl, ll, lr, rfl, by simp [skew]⟩

theorem split_eq_of_rlvl_ne {d k} {l r : onion_dict_node} (h : rlvl r ≠ k) :
    split (.node d k l r) = .node d k l r := by
  cases r with
  | nil => simp [split]
  | node dr kr rl rr =>
    cases rr with
    | nil => simp [split]
    | node drr krr rrl rrr =>
      have hk : k ≠ krr := by simp [rlvl] at h; omega
      simp [split, hk]

theorem split_go {d k dr kr} {l rl rr : onion_dict_node}
    (h : lvl rr = k) (hk : 0 < k) :
    split (.node d k l (.node dr kr rl rr)) =
      .node dr (kr + 1) (.node d k l rl) rr := by
  cases rr with
  | nil => simp at h; omega
  | node drr krr rrl rrr =>
    have hkl : krr = k := by simpa using h
    subst hkl
    simp [split]

theorem rlvl_le_lvl_of_invar : ∀ {t : onion_dict_node}, invar t →
    rlvl t ≤ lvl t
  | .nil, _ => le_refl 0
  | .node d k l r, h => by
    rcases h with ⟨-, -, -, h | ⟨h, -⟩⟩ <;> simp [rlvl] <;> omega

theorem min_if_eq (a b : Nat) : (if a < b then a else b) = min a b := by
  split <;> omega

theorem decrease_level_eq_of_le {d k} {l r : onion_dict_node}
    (h : ¬ min (lvl l) (lvl r) + 1 < k) :
    decrease_level (.node d k l r) = .node d k l r := by
  simp only [decrease_level, min_if_eq]
  rw [if_neg h]

theorem skew_id_of_invar : ∀ {t : onion_dict_node}, invar t → skew t = t
  | .nil, _ => rfl
  | .node d k l r, h => by
    rcases h with ⟨-, -, hk, -⟩
    exact skew_eq_of_lvl_ne (by omega)

theorem split_id_of_invar : ∀ {t : onion_dict_node}, invar t → split t = t
  | .nil, _ => rfl
  | .node d k l r, h => by
    rcases h with ⟨-, hr, hk, hR⟩
    have hrr := rlvl_le_lvl_of_invar hr
    refine split_eq_of_rlvl_ne ?_
    rcases hR with h | ⟨h, h'⟩ <;> omega

theorem skew_right_id_of_invar : ∀ {t : onion_dict_node}, invar t →
    skew_right t = t
  | .nil, _ => rfl
  | .node d k l r, h => by
    simp [skew_right, skew_id_of_invar h.2.1]

theorem skew_right_right_id_of_invar : ∀ {t : onion_dict_node}, invar t →
    skew_right_right t = t
  | .nil, _ => rfl
  | .node d k l r, h => by
    simp [skew_right_right, skew_right_id_of_invar h.2.1]

theorem split_right_id_of_invar : ∀ {t : onion_dict_node}, invar t →
    split_right t = t
  | .nil, _ => rfl
  | .node d k l r, h => by
    simp [split_right, split_id_of_invar h.2.1]

theorem decrease_level_id_of_invar : ∀ {t : onion_dict_node}, invar t →
    decrease_level t = t
  | .nil, _ => rfl
  | .node d k l r, h => by
    rcases h with ⟨-, -, hk, hR⟩
    refine decrease_level_eq_of_le ?_
    rcases hR with h | ⟨h, -⟩ <;> omega

theorem remove_fixup_id_of_invar {t : onion_dict_node} (h : invar t) :
    remove_fixup t = t := by
  unfold remove_fixup
  rw [decrease_level_id_of_invar h, skew_id_of_invar h,
    skew_right_id_of_invar h, skew_right_right_id_of_invar h,
    split_id_of_invar h, split_right_id_of_invar h]

/-! ### Removal of an absent key is the identity on valid trees -/

theorem remove_absent : ∀ {t : onion_dict_node} (key : CStr), invar t →
    key ∉ keysOf t → onion_dict_node_remove t key = (t, []) := by
  intro t
  induction t with
  | nil => intro key _ _; simp [onion_dict_node_remove]
  | node d k l r ihl ihr =>
    intro key hinv hmem
    have hmem' : key ∉ keysOf l ∧ key ≠ d.key ∧ key ∉ keysOf r := by
      simpa using (fun h => hmem h : ¬ key ∈ keysOf (.node d k l r))
    rw [onion_dict_node_remove]
    cases hc : strcmp key d.key with
    | eq => exact absurd (eq_of_strcmp_eq hc) hmem'.2.1
    | lt =>
      simp only [ihl key hinv.1 hmem'.1]
      simp [remove_fixup_id_of_invar hinv]
    | gt =>
      simp only [ihr key hinv.2.1 hmem'.2.2]
      simp [remove_fixup_id_of_invar hinv]

/-! ### The weak BST property is exactly sortedness of the in-order keys -/

theorem wbst_iff_sorted : ∀ t : onion_dict_node,
    WBST t ↔ (keysOf t).Sorted keyLe := by
  intro t
  induction t with
  | nil => simp [List.Sorted]
  | node d k l r ihl ihr =>
    rw [wbst_node_iff, keysOf_node, List.Sorted, List.pairwise_append,
      List.pairwise_cons, ihl, ihr]
    unfold List.Sorted
    constructor
    · rintro ⟨hl, hr, hL, hG⟩
      refine ⟨hl, ⟨hG, hr⟩, ?_⟩
      intro a ha b hb
      rcases List.mem_cons.1 hb with rfl | hb
      · exact hL a ha
      · exact keyLe_trans (hL a ha) (hG b hb)
    · rintro ⟨hl, ⟨hG, hr⟩, hX⟩
      refine ⟨hl, hr, ?_, hG⟩
      intro a ha
      exact hX a ha d.key (List.mem_cons_self _ _)

theorem keysOf_remove_fixup (t : onion_dict_node) :
    keysOf (remove_fixup t) = keysOf t := by
  simp [keysOf, entries_remove_fixup]

theorem wbst_remove_fixup {t : onion_dict_node} (h : WBST t) :
    WBST (remove_fixup t) := by
  rw [wbst_iff_sorted, keysOf_remove_fixup]
  exact (wbst_iff_sorted t).1 h

theorem wbst_skew {t : onion_dict_node} (h : WBST t) : WBST (skew t) := by
  rw [wbst_iff_sorted]
  rw [show keysOf (skew t) = keysOf t by simp [keysOf, entries_skew]]
  exact (wbst_iff_sorted t).1 h

theorem wbst_split {t : onion_dict_node} (h : WBST t) : WBST (split t) := by
  rw [wbst_iff_sorted]
  rw [show keysOf (split t) = keysOf t by simp [keysOf, entries_split]]
  exact (wbst_iff_sorted t).1 h

/-! ### The leftmost / rightmost node of a subtree and flag clearing -/

theorem leftmost_entries : ∀ (l : onion_dict_node) (d : onion_dict_node_data)
    (k : Nat) (r : onion_dict_node),
    ∃ tail, entries (.node d k l r) = leftmostData d l :: tail ∧
      entries (clearLeftmostFlags (.node d k l r)) =
        { leftmostData d l with flags := 0 } :: tail := by
  intro l
  induction l with
  | nil =>
    intro d k r
    exact ⟨entries r, by simp [leftmostData],
      by simp [clearLeftmostFlags, leftmostData]⟩
  | node dl kl ll lr ihll ihlr =>
    intro d k r
    obtain ⟨tail, h1, h2⟩ := ihll dl kl lr
    refine ⟨tail ++ d :: entries r, ?_, ?_⟩
    · simp only [entries_node, leftmostData, h1]
      simp
    · rw [show clearLeftmostFlags (.node d k (.node dl kl ll lr) r) =
        .node d k (clearLeftmostFlags (.node dl kl ll lr)) r from rfl]
      simp only [entries_node, leftmostData, h2]
      simp

theorem rightmost_entries : ∀ (r : onion_dict_node)
    (d : onion_dict_node_data) (k : Nat) (l : onion_dict_node),
    ∃ ini, entries (.node d k l r) = ini ++ [rightmostData d r] ∧
      entries (clearRightmostFlags (.node d k l r)) =
        ini ++ [{ rightmostData d r with flags := 0 }] := by
  intro r
  induction r with
  | nil =>
    intro d k l
    exact ⟨entries l, by simp [rightmostData],
      by simp [clearRightmostFlags, rightmostData]⟩
  | node dr kr rl rr ihrl ihrr =>
    intro d k l
    obtain ⟨ini, h1, h2⟩ := ihrr dr kr rl
    refine ⟨entries l ++ d :: ini, ?_, ?_⟩
    · simp only [entries_node, rightmostData, h1]
      simp
    · rw [show clearRightmostFlags (.node d k l (.node dr kr rl rr)) =
        .node d k l (clearRightmostFlags (.node dr kr rl rr)) from rfl]
      simp only [entries_node, rightmostData, h2]
      simp

theorem keysOf_clearLeftmostFlags (d : onion_dict_node_data) (k : Nat)
    (l r : onion_dict_node) :
    keysOf (clearLeftmostFlags (.node d k l r)) = keysOf (.node d k l r) := by
  obtain ⟨tail, h1, h2⟩ := leftmost_entries l d k r
  simp [keysOf, h1, h2]

theorem keysOf_clearRightmostFlags (d : onion_dict_node_data) (k : Nat)
    (l r : onion_dict_node) :
    keysOf (clearRightmostFlags (.node d k l r)) = keysOf (.node d k l r) := by
  obtain ⟨ini, h1, h2⟩ := rightmost_entries r d k l
  simp [keysOf, h1, h2]

theorem wbst_clearLeftmostFlags {d : onion_dict_node_data} {k : Nat}
    {l r : onion_dict_node} (h : WBST (.node d k l r)) :
    WBST (clearLeftmostFlags (.node d k l r)) := by
  rw [wbst_iff_sorted, keysOf_clearLeftmostFlags]
  exact (wbst_iff_sorted _).1 h

theorem wbst_clearRightmostFlags {d : onion_dict_node_data} {k : Nat}
    {l r : onion_dict_node} (h : WBST (.node d k l r)) :
    WBST (clearRightmostFlags (.node d k l r)) := by
  rw [wbst_iff_sorted, keysOf_clearRightmostFlags]
  exact (wbst_iff_sorted _).1 h

theorem leftmost_mem_keys (d : onion_dict_node_data) (k : Nat)
    (l r : onion_dict_node) :
    (leftmostData d l).key ∈ keysOf (.node d k l r) := by
  obtain ⟨tail, h1, -⟩ := leftmost_entries l d k r
  simp [keysOf, h1]

theorem rightmost_mem_keys (d : onion_dict_node_data) (k : Nat)
    (l r : onion_dict_node) :
    (rightmostData d r).key ∈ keysOf (.node d k l r) := by
  obtain ⟨ini, h1, -⟩ := rightmost_entries r d k l
  simp [keysOf, h1]

theorem leftmost_le {d : onion_dict_node_data} {k : Nat}
    {l r : onion_dict_node} (h : WBST (.node d k l r)) :
    ∀ x ∈ keysOf (.node d k l r), keyLe (leftmostData d l).key x := by
  obtain ⟨tail, h1, -⟩ := leftmost_entries l d k r
  rw [wbst_iff_sorted] at h
  rw [keysOf] at h ⊢
  rw [h1] at h ⊢
  intro x hx
  simp only [List.map_cons, List.mem_cons] at hx
  rcases hx with rfl | hx
  · exact keyLe_refl _
  · exact (List.sorted_cons.1 h).1 x hx

theorem rightmost_ge {d : onion_dict_node_data} {k : Nat}
    {l r : onion_dict_node} (h : WBST (.node d k l r)) :
    ∀ x ∈ keysOf (.node d k l r), keyLe x (rightmostData d r).key := by
  obtain ⟨ini, h1, -⟩ := rightmost_entries r d k l
  rw [wbst_iff_sorted] at h
  rw [keysOf] at h ⊢
  rw [h1] at h ⊢
  intro x hx
  rw [List.map_append, List.Sorted, List.pairwise_append] at h
  simp only [List.map_append, List.mem_append, List.map_cons,
    List.mem_singleton, List.map_nil, List.mem_cons] at hx
  rcases hx with hx | hx | hx
  · exact h.2.2 x (by simpa using hx) _ (by simp)
  · exact keyLe_of_eq hx
  · simp at hx

theorem lvl_clearLeftmostFlags : ∀ t : onion_dict_node,
    lvl (clearLeftmostFlags t) = lvl t
  | .nil => rfl
  | .node d k .nil r => rfl
  | .node d k (.node ..) r => rfl

theorem lvl_clearRightmostFlags : ∀ t : onion_dict_node,
    lvl (clearRightmostFlags t) = lvl t
  | .nil => rfl
  | .node d k l .nil => rfl
  | .node d k l (.node ..) => rfl

theorem rightT_clearRightmostFlags : ∀ (d : onion_dict_node_data) (k : Nat)
    (l r : onion_dict_node),
    rightT (clearRightmostFlags (.node d k l r)) = clearRightmostFlags r
  | d, k, l, .nil => rfl
  | d, k, l, .node .. => rfl

theorem invar_clearLeftmostFlags : ∀ {t : onion_dict_node}, invar t →
    invar (clearLeftmostFlags t)
  | .nil, h => h
  | .node d k .nil r, h => h
  | .node d k (.node dl kl ll lr) r, h => by
    rw [show clearLeftmostFlags (.node d k (.node dl kl ll lr) r) =
      .node d k (clearLeftmostFlags (.node dl kl ll lr)) r from rfl]
    rcases h with ⟨hl, hr, hk, hR⟩
    exact ⟨invar_clearLeftmostFlags hl, hr,
      by rw [lvl_clearLeftmostFlags]; exact hk, hR⟩

theorem invar_clearRightmostFlags : ∀ {t : onion_dict_node}, invar t →
    invar (clearRightmostFlags t)
  | .nil, h => h
  | .node d k l .nil, h => h
  | .node d k l (.node dr kr rl rr), h => by
    rw [show clearRightmostFlags (.node d k l (.node dr kr rl rr)) =
      .node d k l (clearRightmostFlags (.node dr kr rl rr)) from rfl]
    rcases h with ⟨hl, hr, hk, hR⟩
    refine ⟨hl, invar_clearRightmostFlags hr, hk, ?_⟩
    rw [show lvl (clearRightmostFlags (.node dr kr rl rr)) =
      lvl (.node dr kr rl rr) from lvl_clearRightmostFlags _]
    rcases hR with h | ⟨h1, h2⟩
    · exact Or.inl h
    · refine Or.inr ⟨h1, ?_⟩
      rw [rlvl, rightT_clearRightmostFlags, lvl_clearRightmostFlags]
      exact h2


/-! ### Insertion: entry bookkeeping and the weak BST property -/

theorem entries_add_perm : ∀ (t : onion_dict_node) (nd : onion_dict_node_data),
    entries (onion_dict_node_add t nd) ~ nd :: entries t
  | .nil, nd => by simp [onion_dict_node_add]
  | .node d k l r, nd => by
    rw [onion_dict_node_add]
    cases hc : strcmp nd.key d.key with
    | lt =>
      simp only
      calc entries (split (skew (.node d k (onion_dict_node_add l nd) r)))
          = entries (.node d k (onion_dict_node_add l nd) r) := by
            rw [entries_split, entries_skew]
        _ = entries (onion_dict_node_add l nd) ++ d :: entries r := by simp
        _ ~ (nd :: entries l) ++ d :: entries r :=
            (entries_add_perm l nd).append_right _
        _ = nd :: entries (.node d k l r) := by simp
    | eq =>
      simp only
      calc entries (split (skew (.node d k l (onion_dict_node_add r nd))))
          = entries l ++ d :: entries (onion_dict_node_add r nd) := by
            rw [entries_split, entries_skew]; simp
        _ ~ entries l ++ d :: nd :: entries r :=
            ((entries_add_perm r nd).cons d).append_left _
        _ = (entries l ++ [d]) ++ nd :: entries r := by simp
        _ ~ nd :: ((entries l ++ [d]) ++ entries r) := List.perm_middle
        _ = nd :: entries (.node d k l r) := by simp
    | gt =>
      simp only
      calc entries (split (skew (.node d k l (onion_dict_node_add r nd))))
          = entries l ++ d :: entries (onion_dict_node_add r nd) := by
            rw [entries_split, entries_skew]; simp
        _ ~ entries l ++ d :: nd :: entries r :=
            ((entries_add_perm r nd).cons d).append_left _
        _ = (entries l ++ [d]) ++ nd :: entries r := by simp
        _ ~ nd :: ((entries l ++ [d]) ++ entries r) := List.perm_middle
        _ = nd :: entries (.node d k l r) := by simp

theorem keysOf_add_perm (t : onion_dict_node) (nd : onion_dict_node_data) :
    keysOf (onion_dict_node_add t nd) ~ nd.key :: keysOf t :=
  (entries_add_perm t nd).map onion_dict_node_data.key

theorem mem_keysOf_add {t : onion_dict_node} {nd : onion_dict_node_data}
    {x : CStr} :
    x ∈ keysOf (onion_dict_node_add t nd) ↔ x = nd.key ∨ x ∈ keysOf t := by
  rw [(keysOf_add_perm t nd).mem_iff, List.mem_cons]

theorem wbst_add : ∀ {t : onion_dict_node} (nd : onion_dict_node_data),
    WBST t → WBST (onion_dict_node_add t nd)
  | .nil, nd, _ => ⟨trivial, trivial, by simp, by simp⟩
  | .node d k l r, nd, h => by
    obtain ⟨hl, hr, hL, hG⟩ := h
    rw [onion_dict_node_add]
    cases hc : strcmp nd.key d.key with
    | lt =>
      simp only
      refine wbst_split (wbst_skew ⟨wbst_add nd hl, hr, ?_, hG⟩)
      intro x hx
      rcases mem_keysOf_add.1 hx with rfl | hx
      · exact keyLe_of_lt hc
      · exact hL x hx
    | eq =>
      simp only
      refine wbst_split (wbst_skew ⟨hl, wbst_add nd hr, hL, ?_⟩)
      intro x hx
      rcases mem_keysOf_add.1 hx with rfl | hx
      · exact keyLe_of_eq (eq_of_strcmp_eq hc).symm
      · exact hG x hx
    | gt =>
      simp only
      refine wbst_split (wbst_skew ⟨hl, wbst_add nd hr, hL, ?_⟩)
      intro x hx
      rcases mem_keysOf_add.1 hx with rfl | hx
      · exact keyLe_of_lt (strcmp_gt_iff.1 hc)
      · exact hG x hx

/-! ### Insertion maintains the AA level invariants -/

theorem ne_nil_of_lvl_pos {t : onion_dict_node} (h : 0 < lvl t) : t ≠ .nil := by
  cases t with
  | nil => simp at h
  | node d k l r => simp

theorem sngl_rlvl_lt : ∀ {t : onion_dict_node}, sngl t → rlvl t < lvl t
  | .node _ k _ r, h => h

theorem sngl_of_rlvl_lt : ∀ {t : onion_dict_node}, 0 < lvl t →
    rlvl t < lvl t → sngl t
  | .nil, h, _ => by simp at h
  | .node _ k _ r, _, h => h

theorem invar_rlvl : ∀ {t : onion_dict_node}, invar t → t ≠ .nil →
    lvl t = rlvl t + 1 ∨ lvl t = rlvl t
  | .nil, _, hne => absurd rfl hne
  | .node d k l r, h, _ => by
    rcases h with ⟨-, -, -, h | ⟨h, -⟩⟩
    · exact Or.inl (by simpa using h)
    · exact Or.inr (by simpa using h)

theorem add_post_laux {d : onion_dict_node_data} {k : Nat}
    {r l' : onion_dict_node} (hl' : invar l') (hr : invar r)
    (hR : k = lvl r + 1 ∨ (k = lvl r ∧ k = rlvl r + 1))
    (hgrow : lvl l' + 1 = k ∨ (lvl l' = k ∧ sngl l')) :
    invar (split (skew (.node d k l' r))) ∧
      (lvl (split (skew (.node d k l' r))) = k ∨
        (lvl (split (skew (.node d k l' r))) = k + 1 ∧
          sngl (split (skew (.node d k l' r))))) ∧
      (lvl r < k → lvl (split (skew (.node d k l' r))) = k) := by
  have hrr : rlvl r ≤ lvl r := rlvl_le_lvl_of_invar hr
  rcases hgrow with hg | ⟨hg, hsn⟩
  · -- the left subtree kept its level: no rotation fires
    rw [skew_eq_of_lvl_ne (by omega)]
    rw [split_eq_of_rlvl_ne (by rcases hR with h | ⟨h, h'⟩ <;> omega)]
    exact ⟨⟨hl', hr, by omega, hR⟩, Or.inl rfl, fun _ => rfl⟩
  · -- the left subtree grew one level: skew fires
    obtain ⟨dl, ll, lr, rfl, hsk⟩ := skew_go (l := l') hg (by omega)
    rw [hsk]
    obtain ⟨hll, hlr, hkl, hOl⟩ := hl'
    have hlvlr : lvl lr < k := by
      have h := sngl_rlvl_lt hsn
      simp only [rlvl_node, lvl_node] at h
      exact h
    have hlr1 : lvl lr + 1 = k := by rcases hOl with h | ⟨h, -⟩ <;> omega
    rcases hR with hR1 | ⟨hR1, hR2⟩
    · -- right child one level down: the split does not fire
      rw [split_eq_of_rlvl_ne (by simp only [rlvl_node]; omega)]
      refine ⟨⟨hll, ⟨hlr, hr, by omega, Or.inl (by omega)⟩, by omega,
        Or.inr ⟨by simp only [lvl_node], ?_⟩⟩, Or.inl rfl, fun _ => rfl⟩
      simp only [rlvl_node, lvl_node]
      omega
    · -- horizontal right link: the split fires and promotes
      rw [split_go (show lvl r = k by omega) (by omega)]
      refine ⟨⟨⟨hll, hlr, by omega, Or.inl (by omega)⟩, hr,
        by simp only [lvl_node], Or.inl (by omega)⟩,
        Or.inr ⟨rfl, ?_⟩, fun hc => by omega⟩
      simp only [sngl_node]
      omega

theorem add_post_raux {d : onion_dict_node_data} {k : Nat}
    {l r r' : onion_dict_node} (hl : invar l) (hr' : invar r')
    (hk : k = lvl l + 1)
    (hR : k = lvl r + 1 ∨ (k = lvl r ∧ k = rlvl r + 1))
    (hgrow : lvl r' = lvl r ∨ (lvl r' = lvl r + 1 ∧ sngl r'))
    (hs : sngl r → lvl r' = lvl r) :
    invar (split (skew (.node d k l r'))) ∧
      (lvl (split (skew (.node d k l r'))) = k ∨
        (lvl (split (skew (.node d k l r'))) = k + 1 ∧
          sngl (split (skew (.node d k l r'))))) ∧
      (lvl r < k → lvl (split (skew (.node d k l r'))) = k) := by
  rw [skew_eq_of_lvl_ne (by omega)]
  rcases hR with hR1 | ⟨hR1, hR2⟩
  · -- right link was not horizontal
    rcases hgrow with hg | ⟨hg, hsn⟩
    · -- no growth: nothing fires
      have h0 : rlvl r' ≤ lvl r' := rlvl_le_lvl_of_invar hr'
      rw [split_eq_of_rlvl_ne (by omega)]
      exact ⟨⟨hl, hr', hk, Or.inl (by omega)⟩, Or.inl rfl, fun _ => rfl⟩
    · -- the right subtree grew to the node's level, staying single
      have h1 : rlvl r' < lvl r' := sngl_rlvl_lt hsn
      have h2 := invar_rlvl hr' (ne_nil_of_lvl_pos (by omega))
      rw [split_eq_of_rlvl_ne (by omega)]
      exact ⟨⟨hl, hr', hk, Or.inr ⟨by omega, by omega⟩⟩, Or.inl rfl,
        fun _ => rfl⟩
  · -- horizontal right link: r is single, so r' kept the level
    have hsnglr : sngl r := sngl_of_rlvl_lt (by omega) (by omega)
    have hg : lvl r' = k := by rw [hs hsnglr]; omega
    have h2 := invar_rlvl hr' (ne_nil_of_lvl_pos (by omega))
    rcases h2 with h2 | h2
    · -- the right child of r' is one level down: no split
      rw [split_eq_of_rlvl_ne (by omega)]
      exact ⟨⟨hl, hr', hk, Or.inr ⟨by omega, by omega⟩⟩, Or.inl rfl,
        fun hc => by omega⟩
    · -- two consecutive horizontal right links: the split fires
      obtain ⟨dr, rl, rr, hre⟩ := lvl_pos_node (t := r') (by omega)
      rw [hg] at hre
      subst hre
      obtain ⟨hrl, hrr, hkr, hOr⟩ := hr'
      simp only [rlvl_node, lvl_node] at h2 hg
      have hlrr : lvl rr = k := by omega
      have hrr2 : k = rlvl rr + 1 := by
        rcases hOr with h | ⟨-, h⟩ <;> omega
      rw [split_go (by omega : lvl rr = k) (by omega)]
      refine ⟨⟨⟨hl, hrl, hk, Or.inl (by omega)⟩, hrr,
        by simp only [lvl_node], Or.inl (by omega)⟩,
        Or.inr ⟨rfl, ?_⟩, fun hc => by omega⟩
      simp only [sngl_node]
      omega

theorem add_post : ∀ (t : onion_dict_node) (nd : onion_dict_node_data),
    invar t →
    invar (onion_dict_node_add t nd) ∧
      (lvl (onion_dict_node_add t nd) = lvl t ∨
        (lvl (onion_dict_node_add t nd) = lvl t + 1 ∧
          sngl (onion_dict_node_add t nd))) ∧
      (sngl t → lvl (onion_dict_node_add t nd) = lvl t) := by
  intro t
  induction t with
  | nil =>
    intro nd _
    refine ⟨⟨trivial, trivial, by simp, Or.inl (by simp)⟩,
      Or.inr ⟨by simp [onion_dict_node_add], ?_⟩,
      fun h => absurd h (by simp [sngl])⟩
    show lvl (onion_dict_node.nil) < 1
    simp
  | node d k l r ihl ihr =>
    intro nd hinv
    obtain ⟨hl, hr, hk, hR⟩ := hinv
    rw [onion_dict_node_add]
    cases hc : strcmp nd.key d.key with
    | lt =>
      simp only
      obtain ⟨hl', hg', hs'⟩ := ihl nd hl
      have hgrow : lvl (onion_dict_node_add l nd) + 1 = k ∨
          (lvl (onion_dict_node_add l nd) = k ∧
            sngl (onion_dict_node_add l nd)) := by
        rcases hg' with h | ⟨h, h'⟩
        · left; omega
        · right; exact ⟨by omega, h'⟩
      obtain ⟨h1, h2, h3⟩ := add_post_laux (d := d) hl' hr hR hgrow
      refine ⟨h1, by simpa using h2, fun hs => ?_⟩
      have hrk : lvl r < k := by
        have := sngl_rlvl_lt hs
        simpa using this
      simpa using h3 hrk
    | eq =>
      simp only
      obtain ⟨hr', hg', hs'⟩ := ihr nd hr
      obtain ⟨h1, h2, h3⟩ := add_post_raux (d := d) hl hr' hk hR hg' hs'
      refine ⟨h1, by simpa using h2, fun hs => ?_⟩
      have hrk : lvl r < k := by
        have := sngl_rlvl_lt hs
        simpa using this
      simpa using h3 hrk
    | gt =>
      simp only
      obtain ⟨hr', hg', hs'⟩ := ihr nd hr
      obtain ⟨h1, h2, h3⟩ := add_post_raux (d := d) hl hr' hk hR hg' hs'
      refine ⟨h1, by simpa using h2, fun hs => ?_⟩
      have hrk : lvl r < k := by
        have := sngl_rlvl_lt hs
        simpa using this
      simpa using h3 hrk

/-! ### Removal: accounting of freed and remaining freeable memory -/

theorem freeables_nil : freeables .nil = [] := rfl

theorem freeables_node (d : onion_dict_node_data) (k : Nat)
    (l r : onion_dict_node) :
    freeables (.node d k l r) =
      freeables l ++ (onion_dict_node_data_free d ++ freeables r) := by
  simp [freeables]

theorem data_free_flags_zero (d : onion_dict_node_data) :
    onion_dict_node_data_free { d with flags := 0 } = [] := by
  simp [onion_dict_node_data_free, OD_FREE_KEY, OD_FREE_VALUE]

theorem freeables_remove_fixup (t : onion_dict_node) :
    freeables (remove_fixup t) = freeables t := by
  simp [freeables, entries_remove_fixup]

theorem freeables_clearLeftmostFlags (dr : onion_dict_node_data) (kr : Nat)
    (rl rr : onion_dict_node) :
    freeables (.node dr kr rl rr) =
      onion_dict_node_data_free (leftmostData dr rl) ++
        freeables (clearLeftmostFlags (.node dr kr rl rr)) := by
  obtain ⟨tail, h1, h2⟩ := leftmost_entries rl dr kr rr
  simp [freeables, h1, h2, data_free_flags_zero]

theorem freeables_clearRightmostFlags (dl : onion_dict_node_data) (kl : Nat)
    (ll lr : onion_dict_node) :
    freeables (.node dl kl ll lr) =
      freeables (clearRightmostFlags (.node dl kl ll lr)) ++
        onion_dict_node_data_free (rightmostData dl lr) := by
  obtain ⟨ini, h1, h2⟩ := rightmost_entries lr dl kl ll
  simp [freeables, h1, h2, data_free_flags_zero]

theorem freeables_remove : ∀ (t : onion_dict_node) (key : CStr),
    (freeables t : Multiset CStr) =
      ↑(onion_dict_node_remove t key).2 +
        ↑(freeables (onion_dict_node_remove t key).1) := by
  intro t key
  induction t, key using onion_dict_node_remove.induct with
  | case1 key => simp [onion_dict_node_remove, freeables_nil]
  | case2 d k l r key hc ih =>
    simp only [onion_dict_node_remove, hc]
    rw [freeables_remove_fixup, freeables_node d k l r,
      freeables_node d k (onion_dict_node_remove l key).1 r]
    simp only [← Multiset.coe_add]
    rw [ih]
    simp only [add_comm, add_left_comm, add_assoc]
  | case3 d k l r key hc ih =>
    simp only [onion_dict_node_remove, hc]
    rw [freeables_remove_fixup, freeables_node d k l r,
      freeables_node d k l (onion_dict_node_remove r key).1]
    simp only [← Multiset.coe_add]
    rw [ih]
    simp only [add_comm, add_left_comm, add_assoc]
  | case4 d k key hc =>
    simp only [onion_dict_node_remove, hc]
    rw [freeables_node]
    simp [freeables_nil]
  | case5 d k key hc dr kr rl rr td ih =>
    have htd : td = leftmostData dr rl := rfl
    rw [htd] at ih
    simp only [onion_dict_node_remove, hc]
    rw [freeables_remove_fixup,
      freeables_node d k .nil (.node dr kr rl rr),
      freeables_node (leftmostData dr rl) k .nil
        (onion_dict_node_remove (clearLeftmostFlags (.node dr kr rl rr))
          (leftmostData dr rl).key).1,
      freeables_clearLeftmostFlags dr kr rl rr]
    simp only [← Multiset.coe_add]
    rw [ih]
    simp only [freeables_nil, Multiset.coe_nil, zero_add, add_zero,
      add_comm, add_left_comm, add_assoc]
  | case6 d k r key hc dl kl ll lr td ih =>
    have htd : td = rightmostData dl lr := rfl
    rw [htd] at ih
    simp only [onion_dict_node_remove, hc]
    rw [freeables_remove_fixup,
      freeables_node d k (.node dl kl ll lr) r,
      freeables_node (rightmostData dl lr) k
        (onion_dict_node_remove (clearRightmostFlags (.node dl kl ll lr))
          (rightmostData dl lr).key).1 r,
      freeables_clearRightmostFlags dl kl ll lr]
    simp only [← Multiset.coe_add]
    rw [ih]
    simp only [add_comm, add_left_comm, add_assoc]

/-! ### Removal: the weak BST property and the key multiset -/

theorem keysOf_remove_master : ∀ (t : onion_dict_node) (key : CStr),
    WBST t →
    WBST (onion_dict_node_remove t key).1 ∧
      (key ∈ keysOf t →
        (keysOf (onion_dict_node_remove t key).1 : Multiset CStr) + {key} =
          ↑(keysOf t)) ∧
      (key ∉ keysOf t →
        (keysOf (onion_dict_node_remove t key).1 : Multiset CStr) =
          ↑(keysOf t)) := by
  intro t key
  induction t, key using onion_dict_node_remove.induct with
  | case1 key =>
    intro _
    simp only [onion_dict_node_remove]
    exact ⟨trivial, by simp, by simp⟩
  | case2 d k l r key hc ih =>
    intro hw
    obtain ⟨hl, hr, hL, hG⟩ := hw
    obtain ⟨ih1, ih2, ih3⟩ := ih hl
    have hne : key ≠ d.key := fun h => by simp [h, strcmp_self] at hc
    have hnr : key ∉ keysOf r := fun h =>
      not_keyLe_of_lt hc (hG key h)
    have hsub : ∀ x ∈ keysOf (onion_dict_node_remove l key).1,
        x ∈ keysOf l := by
      intro x hx
      by_cases hm : key ∈ keysOf l
      · have := ih2 hm
        have hle : (keysOf (onion_dict_node_remove l key).1 : Multiset CStr) ≤
            ↑(keysOf l) := by
          rw [← this]; exact Multiset.le_add_right _ _
        exact Multiset.mem_coe.1 (Multiset.mem_of_le hle (Multiset.mem_coe.2 hx))
      · have := ih3 hm
        have : x ∈ (keysOf l : Multiset CStr) := by
          rw [← this]; exact Multiset.mem_coe.2 hx
        exact Multiset.mem_coe.1 this
    simp only [onion_dict_node_remove, hc]
    refine ⟨wbst_remove_fixup ⟨ih1, hr, fun x hx => hL x (hsub x hx), hG⟩,
      ?_, ?_⟩
    · intro hmem
      have hml : key ∈ keysOf l := by
        simp only [keysOf_node, List.mem_append, List.mem_cons] at hmem
        rcases hmem with h | h | h
        · exact h
        · exact absurd h hne
        · exact absurd h hnr
      rw [keysOf_remove_fixup]
      simp only [keysOf_node, ← Multiset.coe_add, ← Multiset.cons_coe,
        ← Multiset.singleton_add]
      rw [← ih2 hml]
      simp only [add_comm, add_left_comm, add_assoc]
    · intro hmem
      have hml : key ∉ keysOf l := fun h => hmem (by simp [h])
      rw [keysOf_remove_fixup]
      simp only [keysOf_node, ← Multiset.coe_add, ← Multiset.cons_coe,
        ← Multiset.singleton_add]
      rw [ih3 hml]
  | case3 d k l r key hc ih =>
    intro hw
    obtain ⟨hl, hr, hL, hG⟩ := hw
    obtain ⟨ih1, ih2, ih3⟩ := ih hr
    have hne : key ≠ d.key := fun h => by simp [h, strcmp_self] at hc
    have hnl : key ∉ keysOf l := fun h =>
      not_keyLe_of_lt (strcmp_gt_iff.1 hc) (hL key h)
    have hsub : ∀ x ∈ keysOf (onion_dict_node_remove r key).1,
        x ∈ keysOf r := by
      intro x hx
      by_cases hm : key ∈ keysOf r
      · have := ih2 hm
        have hle : (keysOf (onion_dict_node_remove r key).1 : Multiset CStr) ≤
            ↑(keysOf r) := by
          rw [← this]; exact Multiset.le_add_right _ _
        exact Multiset.mem_coe.1 (Multiset.mem_of_le hle (Multiset.mem_coe.2 hx))
      · have := ih3 hm
        have : x ∈ (keysOf r : Multiset CStr) := by
          rw [← this]; exact Multiset.mem_coe.2 hx
        exact Multiset.mem_coe.1 this
    simp only [onion_dict_node_remove, hc]
    refine ⟨wbst_remove_fixup ⟨hl, ih1, hL, fun x hx => hG x (hsub x hx)⟩,
      ?_, ?_⟩
    · intro hmem
      have hmr : key ∈ keysOf r := by
        simp only [keysOf_node, List.mem_append, List.mem_cons] at hmem
        rcases hmem with h | h | h
        · exact absurd h hnl
        · exact absurd h hne
        · exact h
      rw [keysOf_remove_fixup]
      simp only [keysOf_node, ← Multiset.coe_add, ← Multiset.cons_coe,
        ← Multiset.singleton_add]
      rw [← ih2 hmr]
      simp only [add_comm, add_left_comm, add_assoc]
    · intro hmem
      have hmr : key ∉ keysOf r := fun h => hmem (by simp [h])
      rw [keysOf_remove_fixup]
      simp only [keysOf_node, ← Multiset.coe_add, ← Multiset.cons_coe,
        ← Multiset.singleton_add]
      rw [ih3 hmr]
  | case4 d k key hc =>
    intro _
    have hkey : key = d.key := eq_of_strcmp_eq hc
    simp only [onion_dict_node_remove, hc]
    refine ⟨trivial, ?_, ?_⟩
    · intro _
      simp [hkey]
    · intro hmem
      exact absurd (by simp [hkey]) hmem
  | case5 d k key hc dr kr rl rr td ih =>
    intro hw
    have htd : td = leftmostData dr rl := rfl
    rw [htd] at ih
    obtain ⟨-, hR, -, hG⟩ := hw
    have hkey : key = d.key := eq_of_strcmp_eq hc
    have hw0 : WBST (clearLeftmostFlags (.node dr kr rl rr)) :=
      wbst_clearLeftmostFlags hR
    have hmem0 : (leftmostData dr rl).key ∈
        keysOf (clearLeftmostFlags (.node dr kr rl rr)) := by
      rw [keysOf_clearLeftmostFlags]
      exact leftmost_mem_keys dr kr rl rr
    obtain ⟨ih1, ih2, -⟩ := ih hw0
    have hkeq := ih2 hmem0
    rw [keysOf_clearLeftmostFlags] at hkeq
    have hsub : ∀ x ∈ keysOf (onion_dict_node_remove
        (clearLeftmostFlags (.node dr kr rl rr)) (leftmostData dr rl).key).1,
        x ∈ keysOf (.node dr kr rl rr) := by
      intro x hx
      have hle : (keysOf (onion_dict_node_remove
          (clearLeftmostFlags (.node dr kr rl rr))
            (leftmostData dr rl).key).1 : Multiset CStr) ≤
          ↑(keysOf (.node dr kr rl rr)) := by
        rw [← hkeq]; exact Multiset.le_add_right _ _
      exact Multiset.mem_coe.1 (Multiset.mem_of_le hle (Multiset.mem_coe.2 hx))
    simp only [onion_dict_node_remove, hc]
    refine ⟨?_, ?_, ?_⟩
    · refine wbst_remove_fixup ⟨trivial, ih1, by simp, ?_⟩
      intro x hx
      exact leftmost_le hR x (hsub x hx)
    · intro hmem
      rw [keysOf_remove_fixup]
      rw [show keysOf (onion_dict_node.node (leftmostData dr rl) k .nil
          (onion_dict_node_remove (clearLeftmostFlags (.node dr kr rl rr))
            (leftmostData dr rl).key).1) =
          (leftmostData dr rl).key :: keysOf (onion_dict_node_remove
            (clearLeftmostFlags (.node dr kr rl rr))
              (leftmostData dr rl).key).1 by simp]
      rw [show keysOf (onion_dict_node.node d k .nil (.node dr kr rl rr)) =
          d.key :: keysOf (onion_dict_node.node dr kr rl rr) by
        rw [keysOf_node, keysOf_nil, List.nil_append]]
      simp only [← Multiset.cons_coe, ← Multiset.singleton_add]
      rw [← hkeq, hkey]
      simp only [add_comm, add_left_comm, add_assoc]
    · intro hmem
      exact absurd (by simp [hkey]) hmem
  | case6 d k r key hc dl kl ll lr td ih =>
    intro hw
    have htd : td = rightmostData dl lr := rfl
    rw [htd] at ih
    obtain ⟨hLw, hrw, hL, hG⟩ := hw
    have hkey : key = d.key := eq_of_strcmp_eq hc
    have hw0 : WBST (clearRightmostFlags (.node dl kl ll lr)) :=
      wbst_clearRightmostFlags hLw
    have hmem0 : (rightmostData dl lr).key ∈
        keysOf (clearRightmostFlags (.node dl kl ll lr)) := by
      rw [keysOf_clearRightmostFlags]
      exact rightmost_mem_keys dl kl ll lr
    obtain ⟨ih1, ih2, -⟩ := ih hw0
    have hkeq := ih2 hmem0
    rw [keysOf_clearRightmostFlags] at hkeq
    have hsub : ∀ x ∈ keysOf (onion_dict_node_remove
        (clearRightmostFlags (.node dl kl ll lr)) (rightmostData dl lr).key).1,
        x ∈ keysOf (.node dl kl ll lr) := by
      intro x hx
      have hle : (keysOf (onion_dict_node_remove
          (clearRightmostFlags (.node dl kl ll lr))
            (rightmostData dl lr).key).1 : Multiset CStr) ≤
          ↑(keysOf (.node dl kl ll lr)) := by
        rw [← hkeq]; exact Multiset.le_add_right _ _
      exact Multiset.mem_coe.1 (Multiset.mem_of_le hle (Multiset.mem_coe.2 hx))
    have htdmem : (rightmostData dl lr).key ∈ keysOf (.node dl kl ll lr) :=
      rightmost_mem_keys dl kl ll lr
    simp only [onion_dict_node_remove, hc]
    refine ⟨?_, ?_, ?_⟩
    · refine wbst_remove_fixup ⟨ih1, hrw, ?_, ?_⟩
      · intro x hx
        exact rightmost_ge hLw x (hsub x hx)
      · intro x hx
        exact keyLe_trans (hL _ htdmem) (hG x hx)
    · intro hmem
      rw [keysOf_remove_fixup]
      rw [show keysOf (onion_dict_node.node (rightmostData dl lr) k
          (onion_dict_node_remove (clearRightmostFlags (.node dl kl ll lr))
            (rightmostData dl lr).key).1 r) =
          keysOf (onion_dict_node_remove (clearRightmostFlags
            (.node dl kl ll lr)) (rightmostData dl lr).key).1 ++
            (rightmostData dl lr).key :: keysOf r from keysOf_node ..]
      rw [show keysOf (onion_dict_node.node d k (.node dl kl ll lr) r) =
          keysOf (onion_dict_node.node dl kl ll lr) ++ d.key :: keysOf r
          from keysOf_node ..]
      simp only [← Multiset.coe_add, ← Multiset.cons_coe,
        ← Multiset.singleton_add]
      rw [← hkeq, hkey]
      simp only [add_comm, add_left_comm, add_assoc]
    · intro hmem
      exact absurd (by simp [hkey]) hmem

/-! ### Characterizing decrease_level, and rewrite equations for the fixup -/

theorem withLevel_self : ∀ t : onion_dict_node, withLevel t (lvl t) = t
  | .nil => rfl
  | .node d k l r => rfl

theorem withLevel_node (d : onion_dict_node_data) (k n : Nat)
    (l r : onion_dict_node) :
    withLevel (.node d k l r) n = .node d n l r := rfl

theorem skew_right_node (d : onion_dict_node_data) (k : Nat)
    (l r : onion_dict_node) :
    skew_right (.node d k l r) = .node d k l (skew r) := rfl

theorem skew_right_right_node (d : onion_dict_node_data) (k : Nat)
    (l r : onion_dict_node) :
    skew_right_right (.node d k l r) = .node d k l (skew_right r) := rfl

theorem split_right_node (d : onion_dict_node_data) (k : Nat)
    (l r : onion_dict_node) :
    split_right (.node d k l r) = .node d k l (split r) := rfl

theorem skew_fire (d dl : onion_dict_node_data) (k : Nat)
    (ll lr r : onion_dict_node) :
    skew (.node d k (.node dl k ll lr) r) = .node dl k ll (.node d k lr r) := by
  simp [skew]

theorem decrease_level_spec (d : onion_dict_node_data) (k : Nat)
    (l r : onion_dict_node)
    (h1 : min (lvl l) (lvl r) + 1 ≤ k) (h2 : lvl r ≤ k) :
    decrease_level (.node d k l r) =
      .node d (min (lvl l) (lvl r) + 1) l
        (withLevel r (min (lvl r) (min (lvl l) (lvl r) + 1))) := by
  cases r with
  | nil =>
    simp only [lvl_nil] at h1 h2 ⊢
    by_cases hc : min (lvl l) 0 + 1 < k
    · simp [decrease_level, min_if_eq, hc, withLevel] <;> omega
    · simp [decrease_level, min_if_eq, hc, withLevel,
        show min (lvl l) 0 + 1 = k from by omega]
      omega
  | node dr kr rl rr =>
    simp only [lvl_node] at h1 h2 ⊢
    by_cases hc : min (lvl l) kr + 1 < k
    · by_cases hcl : min (lvl l) kr + 1 < kr
      · simp [decrease_level, min_if_eq, hc, hcl, withLevel_node] <;> omega
      · simp [decrease_level, min_if_eq, hc, hcl, withLevel_node] <;> omega
    · simp [decrease_level, min_if_eq, hc, withLevel_node,
        show min (lvl l) kr + 1 = k from by omega,
        show min kr k = kr from by omega]

/-! ### The removal fixup restores the AA invariants -/

theorem fixup_post {d : onion_dict_node_data} {k : Nat} {l r : onion_dict_node}
    (hl : invar l) (hr : invar r)
    (hL : k = lvl l + 1 ∨ k = lvl l + 2)
    (hR : k = lvl r + 1 ∨ k = lvl r + 2 ∨ (k = lvl r ∧ sngl r))
    (hX : ¬ (k = lvl l + 2 ∧ k = lvl r + 2)) :
    invar (remove_fixup (.node d k l r)) ∧
      (lvl (remove_fixup (.node d k l r)) = k ∨
        lvl (remove_fixup (.node d k l r)) + 1 = k) ∧
      (lvl (remove_fixup (.node d k l r)) = k → lvl r + 1 ≤ k →
        sngl (remove_fixup (.node d k l r))) := by
  unfold remove_fixup
  rcases hL with hL1 | hL2
  · rcases hR with hR1 | hR2 | ⟨hR3, hsr⟩
    · -- (1a) both children at level k-1: the tree is already valid
      have hinv : invar (.node d k l r) := ⟨hl, hr, hL1, Or.inl hR1⟩
      rw [decrease_level_id_of_invar hinv, skew_id_of_invar hinv,
        skew_right_id_of_invar hinv, skew_right_right_id_of_invar hinv,
        split_id_of_invar hinv, split_right_id_of_invar hinv]
      exact ⟨hinv, Or.inl rfl,
        fun _ _ => by simp only [sngl_node]; omega⟩
    · -- (1b) the right child dropped to level k-2
      have hk2 : 2 ≤ k := by omega
      have hdec : decrease_level (.node d k l r) = .node d (k - 1) l r := by
        rw [decrease_level_spec d k l r (by omega) (by omega)]
        rw [show min (lvl l) (lvl r) + 1 = k - 1 from by omega,
          show min (lvl r) (k - 1) = lvl r from by omega, withLevel_self]
      rw [hdec]
      obtain ⟨dl, ll, lr, hlE⟩ := lvl_pos_node (t := l) (by omega)
      rw [show lvl l = k - 1 from by omega] at hlE
      subst hlE
      obtain ⟨hll, hlr, hkl, hOl⟩ := hl
      rw [skew_fire]
      rcases hOl with hOl1 | ⟨hOl1, hOl2⟩
      · -- the left child's right subtree is at level k-2
        rw [skew_right_node,
          skew_eq_of_lvl_ne (show lvl lr ≠ k - 1 by omega),
          skew_right_right_node, skew_right_node, skew_id_of_invar hr,
          split_eq_of_rlvl_ne
            (show rlvl (.node d (k - 1) lr r) ≠ k - 1 by
              simp only [rlvl_node]; omega),
          split_right_node,
          split_eq_of_rlvl_ne
            (show rlvl r ≠ k - 1 from by
              have := rlvl_le_lvl_of_invar hr; omega)]
        refine ⟨⟨hll, ⟨hlr, hr, by omega, Or.inl (by omega)⟩, by omega,
          Or.inr ⟨by simp only [lvl_node], by simp only [rlvl_node]; omega⟩⟩,
          Or.inr (by simp only [lvl_node]; omega), fun hf _ => ?_⟩
        simp only [lvl_node] at hf
        omega
      · -- the left child's right subtree is horizontal at level k-1
        obtain ⟨dlr, lrl, lrr, hlrE⟩ := lvl_pos_node (t := lr) (by omega)
        rw [show lvl lr = k - 1 from by omega] at hlrE
        subst hlrE
        simp only [rlvl_node] at hOl2
        obtain ⟨hlrl, hlrr, hklr, hOlr⟩ := hlr
        rw [skew_right_node, skew_fire, skew_right_right_node,
          skew_right_node,
          skew_eq_of_lvl_ne (show lvl lrr ≠ k - 1 by omega),
          split_go (show lvl (onion_dict_node.node d (k - 1) lrr r) = k - 1
            from by simp only [lvl_node]) (by omega),
          split_right_node,
          split_eq_of_rlvl_ne
            (show rlvl r ≠ k - 1 from by
              have := rlvl_le_lvl_of_invar hr; omega)]
        refine ⟨⟨⟨hll, hlrl, by omega, Or.inl (by omega)⟩,
          ⟨hlrr, hr, by omega, Or.inl (by omega)⟩,
          by simp only [lvl_node], Or.inl (by simp only [lvl_node])⟩,
          Or.inl (by simp only [lvl_node]; omega), fun _ _ => ?_⟩
        simp only [sngl_node, lvl_node]
        omega
    · -- (1c) horizontal right link, single: the tree is already valid
      have hrlvl := invar_rlvl hr (ne_nil_of_lvl_pos (by omega))
      have hs := sngl_rlvl_lt hsr
      have hinv : invar (.node d k l r) :=
        ⟨hl, hr, hL1, Or.inr ⟨hR3, by omega⟩⟩
      rw [decrease_level_id_of_invar hinv, skew_id_of_invar hinv,
        skew_right_id_of_invar hinv, skew_right_right_id_of_invar hinv,
        split_id_of_invar hinv, split_right_id_of_invar hinv]
      exact ⟨hinv, Or.inl rfl, fun _ hcon => by omega⟩
  · rcases hR with hR1 | hR2 | ⟨hR3, hsr⟩
    · -- (2a) the left child dropped to k-2, right child at k-1
      have hk2 : 2 ≤ k := by omega
      have hdec : decrease_level (.node d k l r) = .node d (k - 1) l r := by
        rw [decrease_level_spec d k l r (by omega) (by omega)]
        rw [show min (lvl l) (lvl r) + 1 = k - 1 from by omega,
          show min (lvl r) (k - 1) = lvl r from by omega, withLevel_self]
      rw [hdec, skew_eq_of_lvl_ne (by omega), skew_right_node,
        skew_id_of_invar hr, skew_right_right_node,
        skew_right_id_of_invar hr]
      have hrne : r ≠ .nil := ne_nil_of_lvl_pos (by omega)
      rcases invar_rlvl hr hrne with hrr | hrr
      · -- no horizontal link inside the right child: no split
        rw [split_eq_of_rlvl_ne (by omega), split_right_node,
          split_id_of_invar hr]
        refine ⟨⟨hl, hr, by omega, Or.inr ⟨by omega, by omega⟩⟩,
          Or.inr (by simp only [lvl_node]; omega), fun hf _ => ?_⟩
        simp only [lvl_node] at hf
        omega
      · -- horizontal link inside the right child: the split fires
        obtain ⟨dr, rl, rr, hrE⟩ := lvl_pos_node (t := r) (by omega)
        rw [show lvl r = k - 1 from by omega] at hrE
        subst hrE
        simp only [rlvl_node, lvl_node] at hrr
        obtain ⟨hrl, hrr2, hkr, hOr⟩ := hr
        have hlvlrr : lvl rr = k - 1 := by omega
        rw [split_go (show lvl rr = k - 1 from hlvlrr) (by omega),
          split_right_node, split_id_of_invar hrr2]
        refine ⟨⟨⟨hl, hrl, by omega, Or.inl (by omega)⟩, hrr2,
          by simp only [lvl_node], Or.inl (by omega)⟩,
          Or.inl (by simp only [lvl_node]; omega), fun _ _ => ?_⟩
        simp only [sngl_node, lvl_node]
        omega
    · -- excluded: both children dropped
      exact absurd ⟨hL2, hR2⟩ hX
    · -- (2b) the left child dropped to k-2, horizontal right at level k
      have hk2 : 2 ≤ k := by omega
      obtain ⟨dr, A, B, hrE⟩ := lvl_pos_node (t := r) (by omega)
      rw [show lvl r = k from by omega] at hrE
      subst hrE
      obtain ⟨hA, hB, hkA, hOr⟩ := hr
      have hsB : lvl B < k := by
        have := sngl_rlvl_lt hsr
        simp only [rlvl_node, lvl_node] at this
        exact this
      have hlB : lvl B = k - 1 := by
        rcases hOr with h | ⟨h, -⟩ <;> omega
      have hdec : decrease_level (.node d k l (.node dr k A B)) =
          .node d (k - 1) l (.node dr (k - 1) A B) := by
        rw [decrease_level_spec d k l (.node dr k A B)
          (by simp only [lvl_node]; omega) (by simp only [lvl_node]; omega)]
        rw [show min (lvl l) (lvl (onion_dict_node.node dr k A B)) + 1 =
            k - 1 from by simp only [lvl_node]; omega,
          show min (lvl (onion_dict_node.node dr k A B)) (k - 1) = k - 1
            from by simp only [lvl_node]; omega, withLevel_node]
      rw [hdec, skew_eq_of_lvl_ne (show lvl l ≠ k - 1 by omega),
        skew_right_node]
      obtain ⟨da, Al, Ar, hAE⟩ := lvl_pos_node (t := A) (by omega)
      rw [show lvl A = k - 1 from by omega] at hAE
      subst hAE
      obtain ⟨hAl, hAr, hkAl, hOA⟩ := hA
      rw [skew_fire, skew_right_right_node, skew_right_node]
      rcases hOA with hOA1 | ⟨hOA1, hOA2⟩
      · -- the displaced child keeps no horizontal left link
        rw [skew_eq_of_lvl_ne (show lvl Ar ≠ k - 1 by omega),
          split_go (show lvl (onion_dict_node.node dr (k - 1) Ar B) = k - 1
            from by simp only [lvl_node]) (by omega),
          split_right_node]
        rcases invar_rlvl hB (ne_nil_of_lvl_pos (by omega)) with hrB | hrB
        · -- no split of the right child
          rw [split_eq_of_rlvl_ne (show rlvl B ≠ k - 1 by omega)]
          refine ⟨⟨⟨hl, hAl, by omega, Or.inl (by omega)⟩,
            ⟨hAr, hB, by omega, Or.inr ⟨by omega, by omega⟩⟩,
            by simp only [lvl_node], Or.inl (by simp only [lvl_node])⟩,
            Or.inl (by simp only [lvl_node]; omega), fun _ hcon => ?_⟩
          simp only [lvl_node] at hcon
          omega
        · -- the right child splits as well
          obtain ⟨db, Bl, Br, hBE⟩ := lvl_pos_node (t := B) (by omega)
          rw [show lvl B = k - 1 from by omega] at hBE
          subst hBE
          simp only [rlvl_node, lvl_node] at hrB
          obtain ⟨hBl, hBr, hkB, hOB⟩ := hB
          rw [split_go (show lvl Br = k - 1 from by omega) (by omega)]
          refine ⟨⟨⟨hl, hAl, by omega, Or.inl (by omega)⟩,
            ⟨⟨hAr, hBl, by omega, Or.inl (by omega)⟩, hBr,
              by simp only [lvl_node], Or.inl (by omega)⟩,
            by simp only [lvl_node],
            Or.inr ⟨by simp only [lvl_node], by simp only [rlvl_node, lvl_node]; omega⟩⟩,
            Or.inl (by simp only [lvl_node]; omega), fun _ hcon => ?_⟩
          simp only [lvl_node] at hcon
          omega
      · -- the displaced child has a horizontal left link: third skew fires
        obtain ⟨dar, Arl, Arr, hArE⟩ := lvl_pos_node (t := Ar) (by omega)
        rw [show lvl Ar = k - 1 from by omega] at hArE
        subst hArE
        simp only [rlvl_node, lvl_node] at hOA2
        obtain ⟨hArl, hArr, hkAr, hOAr⟩ := hAr
        rw [skew_fire,
          split_go (show lvl (onion_dict_node.node dar (k - 1) Arl
              (onion_dict_node.node dr (k - 1) Arr B)) = k - 1
            from by simp only [lvl_node]) (by omega),
          split_right_node,
          split_go (show lvl B = k - 1 from by omega) (by omega)]
        refine ⟨⟨⟨hl, hAl, by omega, Or.inl (by omega)⟩,
          ⟨⟨hArl, hArr, by omega, Or.inl (by omega)⟩, hB,
            by simp only [lvl_node], Or.inl (by omega)⟩,
          by simp only [lvl_node],
          Or.inr ⟨by simp only [lvl_node], by simp only [rlvl_node, lvl_node]; omega⟩⟩,
          Or.inl (by simp only [lvl_node]; omega), fun _ hcon => ?_⟩
        simp only [lvl_node] at hcon
        omega

theorem remove_post : ∀ (t : onion_dict_node) (key : CStr), invar t →
    invar (onion_dict_node_remove t key).1 ∧
      (lvl (onion_dict_node_remove t key).1 = lvl t ∨
        lvl (onion_dict_node_remove t key).1 + 1 = lvl t) ∧
      (lvl (onion_dict_node_remove t key).1 = lvl t → sngl t →
        sngl (onion_dict_node_remove t key).1) := by
  intro t key
  induction t, key using onion_dict_node_remove.induct with
  | case1 key =>
    intro _
    refine ⟨?_, ?_, ?_⟩ <;> simp [onion_dict_node_remove, sngl]
  | case2 d k l r key hc ih =>
    intro hinv
    obtain ⟨hl, hr, hk, hRo⟩ := hinv
    obtain ⟨ih1, ih2, ih3⟩ := ih hl
    have hkpos : 1 ≤ k := by omega
    have hL : k = lvl (onion_dict_node_remove l key).1 + 1 ∨
        k = lvl (onion_dict_node_remove l key).1 + 2 := by
      rcases ih2 with h | h
      · left; omega
      · right; omega
    have hR : k = lvl r + 1 ∨ k = lvl r + 2 ∨ (k = lvl r ∧ sngl r) := by
      rcases hRo with h | ⟨h1, h2⟩
      · exact Or.inl h
      · exact Or.inr (Or.inr ⟨h1, sngl_of_rlvl_lt (by omega) (by omega)⟩)
    have hX : ¬ (k = lvl (onion_dict_node_remove l key).1 + 2 ∧
        k = lvl r + 2) := by
      rintro ⟨-, h2⟩
      rcases hRo with h | ⟨h1, -⟩ <;> omega
    obtain ⟨f1, f2, f3⟩ := fixup_post (d := d) ih1 hr hL hR hX
    simp only [onion_dict_node_remove, hc]
    refine ⟨f1, by simpa using f2, fun h1 h2 => ?_⟩
    simp only [lvl_node] at h1
    simp only [sngl_node] at h2
    exact f3 h1 (by omega)
  | case3 d k l r key hc ih =>
    intro hinv
    obtain ⟨hl, hr, hk, hRo⟩ := hinv
    obtain ⟨ih1, ih2, ih3⟩ := ih hr
    have hkpos : 1 ≤ k := by omega
    have hR : k = lvl (onion_dict_node_remove r key).1 + 1 ∨
        k = lvl (onion_dict_node_remove r key).1 + 2 ∨
        (k = lvl (onion_dict_node_remove r key).1 ∧
          sngl (onion_dict_node_remove r key).1) := by
      rcases hRo with h | ⟨hq1, hq2⟩
      · rcases ih2 with h2 | h2
        · left; omega
        · right; left; omega
      · have hsr : sngl r := sngl_of_rlvl_lt (by omega) (by omega)
        rcases ih2 with h2 | h2
        · exact Or.inr (Or.inr ⟨by omega, ih3 h2 hsr⟩)
        · left; omega
    have hX : ¬ (k = lvl l + 2 ∧
        k = lvl (onion_dict_node_remove r key).1 + 2) := by
      rintro ⟨h1, -⟩
      omega
    obtain ⟨f1, f2, f3⟩ :=
      fixup_post (d := d) hl ih1 (Or.inl hk) hR hX
    simp only [onion_dict_node_remove, hc]
    refine ⟨f1, by simpa using f2, fun h1 h2 => ?_⟩
    simp only [lvl_node] at h1
    simp only [sngl_node] at h2
    have hle : lvl (onion_dict_node_remove r key).1 ≤ lvl r := by
      rcases ih2 with h | h <;> omega
    exact f3 h1 (by omega)
  | case4 d k key hc =>
    intro hinv
    obtain ⟨-, -, hk, -⟩ := hinv
    simp only [lvl_nil] at hk
    simp only [onion_dict_node_remove, hc]
    refine ⟨trivial, Or.inr (by simp only [lvl_nil, lvl_node]; omega),
      fun h1 h2 => ?_⟩
    simp only [lvl_nil, lvl_node] at h1
    omega
  | case5 d k key hc dr kr rl rr td ih =>
    intro hinv
    obtain ⟨-, hR', hk1, hOr⟩ := hinv
    have hk : k = 1 := by simpa using hk1
    obtain ⟨hrl, hrr, hkrl, hOrr⟩ := hR'
    have hkr : kr = k := by
      rcases hOr with h | ⟨h, -⟩
      · simp only [lvl_node] at h
        omega
      · simp only [lvl_node] at h
        omega
    have hrlnil : rl = .nil := by
      rw [← lvl_eq_zero_iff hrl]
      omega
    have hrrnil : rr = .nil := by
      rw [← lvl_eq_zero_iff hrr]
      rcases hOr with h | ⟨-, h⟩
      · simp only [lvl_node] at h
        omega
      · simp only [rlvl_node] at h
        omega
    subst hrlnil hrrnil
    simp only [onion_dict_node_remove, hc]
    have hinner : onion_dict_node_remove
        (clearLeftmostFlags (.node dr kr .nil .nil))
          (leftmostData dr .nil).key =
        (.nil, onion_dict_node_data_free { dr with flags := 0 }) := by
      simp [onion_dict_node_remove, clearLeftmostFlags, leftmostData,
        strcmp_self]
    rw [hinner]
    have hfinv : invar (.node (leftmostData dr .nil) k .nil .nil) :=
      ⟨trivial, trivial, hk1, Or.inl hk1⟩
    rw [remove_fixup_id_of_invar hfinv]
    refine ⟨hfinv, Or.inl (by simp), fun _ h2 => ?_⟩
    simp only [sngl_node, lvl_node] at h2
    omega
  | case6 d k r key hc dl kl ll lr td ih =>
    intro hinv
    have htd : td = rightmostData dl lr := rfl
    rw [htd] at ih
    obtain ⟨hL', hr, hk, hOr⟩ := hinv
    have hkl : kl = lvl (onion_dict_node.node dl kl ll lr) := by simp
    have hinv0 : invar (clearRightmostFlags (.node dl kl ll lr)) :=
      invar_clearRightmostFlags hL'
    have hlvl0 : lvl (clearRightmostFlags (.node dl kl ll lr)) = kl := by
      rw [lvl_clearRightmostFlags]
      simp
    obtain ⟨ih1, ih2, ih3⟩ := ih hinv0
    rw [hlvl0] at ih2
    have hkk : k = kl + 1 := by simpa using hk
    have hL : k = lvl (onion_dict_node_remove
        (clearRightmostFlags (.node dl kl ll lr))
          (rightmostData dl lr).key).1 + 1 ∨
        k = lvl (onion_dict_node_remove
          (clearRightmostFlags (.node dl kl ll lr))
            (rightmostData dl lr).key).1 + 2 := by
      rcases ih2 with h | h
      · left; omega
      · right; omega
    have hR : k = lvl r + 1 ∨ k = lvl r + 2 ∨ (k = lvl r ∧ sngl r) := by
      rcases hOr with h | ⟨h1, h2⟩
      · exact Or.inl h
      · exact Or.inr (Or.inr ⟨h1, sngl_of_rlvl_lt (by omega) (by omega)⟩)
    have hX : ¬ (k = lvl (onion_dict_node_remove
        (clearRightmostFlags (.node dl kl ll lr))
          (rightmostData dl lr).key).1 + 2 ∧ k = lvl r + 2) := by
      rintro ⟨-, h2⟩
      rcases hOr with h | ⟨h1, -⟩ <;> omega
    obtain ⟨f1, f2, f3⟩ :=
      fixup_post (d := rightmostData dl lr) ih1 hr hL hR hX
    simp only [onion_dict_node_remove, hc]
    refine ⟨f1, by simpa using f2, fun h1 h2 => ?_⟩
    simp only [lvl_node] at h1
    simp only [sngl_node] at h2
    exact f3 h1 (by omega)

/-! ### Lookup -/

theorem find_some_mem : ∀ {t : onion_dict_node} {key : CStr}
    {dE : onion_dict_node_data},
    onion_dict_find_node t key = some dE → dE ∈ entries t ∧ dE.key = key
  | .nil, key, dE, h => by simp [onion_dict_find_node] at h
  | .node d k l r, key, dE, h => by
    rw [onion_dict_find_node] at h
    cases hc : strcmp key d.key with
    | eq =>
      rw [hc] at h
      cases h
      exact ⟨by simp, (eq_of_strcmp_eq hc).symm⟩
    | lt =>
      rw [hc] at h
      obtain ⟨h1, h2⟩ := find_some_mem h
      exact ⟨by simp [h1], h2⟩
    | gt =>
      rw [hc] at h
      obtain ⟨h1, h2⟩ := find_some_mem h
      exact ⟨by simp [h1], h2⟩

theorem find_isSome_of_mem : ∀ {t : onion_dict_node} {key : CStr}, WBST t →
    key ∈ keysOf t → (onion_dict_find_node t key).isSome
  | .nil, key, _, hm => by simp at hm
  | .node d k l r, key, hw, hm => by
    obtain ⟨hl, hr, hL, hG⟩ := hw
    rw [onion_dict_find_node]
    cases hc : strcmp key d.key with
    | eq => simp
    | lt =>
      have hkey : key ∈ keysOf l := by
        simp only [keysOf_node, List.mem_append, List.mem_cons] at hm
        rcases hm with h | h | h
        · exact h
        · exact absurd h (fun he => by simp [he, strcmp_self] at hc)
        · exact absurd (hG key h) (not_keyLe_of_lt hc)
      exact find_isSome_of_mem hl hkey
    | gt =>
      have hkey : key ∈ keysOf r := by
        simp only [keysOf_node, List.mem_append, List.mem_cons] at hm
        rcases hm with h | h | h
        · exact absurd (hL key h) (not_keyLe_of_lt (strcmp_gt_iff.1 hc))
        · exact absurd h (fun he => by simp [he, strcmp_self] at hc)
        · exact h
      exact find_isSome_of_mem hr hkey

theorem find_eq_none_of_not_mem {t : onion_dict_node} {key : CStr}
    (h : key ∉ keysOf t) : onion_dict_find_node t key = none := by
  cases hf : onion_dict_find_node t key with
  | none => rfl
  | some dE =>
    obtain ⟨h1, h2⟩ := find_some_mem hf
    exact absurd (h2 ▸ List.mem_map_of_mem onion_dict_node_data.key h1) h

/-! ### Counting -/

theorem node_count_eq_entries : ∀ t : onion_dict_node,
    onion_dict_node_count t = (entries t).length
  | .nil => rfl
  | .node d k l r => by
    simp [onion_dict_node_count, node_count_eq_entries l,
      node_count_eq_entries r]
    omega

theorem count_eq_entries (d : onion_dict) :
    onion_dict_count d = (entries d.root).length := by
  obtain ⟨root⟩ := d
  cases root with
  | nil => rfl
  | node dd k l r => simp [onion_dict_count, node_count_eq_entries]

theorem count_add (d : onion_dict) (key value : CStr) (flags : Nat) :
    onion_dict_count (onion_dict_add d key value flags) =
      onion_dict_count d + 1 := by
  rw [count_eq_entries, count_eq_entries]
  rw [show (onion_dict_add d key value flags).root =
    onion_dict_node_add d.root (onion_dict_set_node_data key value flags)
    from rfl]
  rw [(entries_add_perm d.root
    (onion_dict_set_node_data key value flags)).length_eq]
  simp

theorem preorder_eq_entries : ∀ t : onion_dict_node,
    onion_dict_node_preorder t = (entries t).map (fun e => (e.key, e.value))
  | .nil => rfl
  | .node d k l r => by
    simp [onion_dict_node_preorder, preorder_eq_entries l,
      preorder_eq_entries r]

theorem dict_preorder_eq (d : onion_dict) :
    onion_dict_preorder d = onion_dict_node_preorder d.root := by
  obtain ⟨root⟩ := d
  cases root with
  | nil => rfl
  | node dd k l r => rfl

/-! ### Public operations preserve the invariants -/

theorem get_eq (d : onion_dict) (key : CStr) :
    onion_dict_get d key =
      Option.map onion_dict_node_data.value
        (onion_dict_find_node d.root key) := by
  cases hf : onion_dict_find_node d.root key <;>
    simp [onion_dict_get, hf]

theorem run_op_preserves (d : onion_dict) (op : dict_op)
    (h : invar d.root ∧ WBST d.root) :
    invar (run_op d op).root ∧ WBST (run_op d op).root := by
  cases op with
  | add key value flags =>
    exact ⟨(add_post d.root _ h.1).1, wbst_add _ h.2⟩
  | remove key =>
    exact ⟨(remove_post d.root key h.1).1,
      (keysOf_remove_master d.root key h.2).1⟩

theorem run_ops_invar : ∀ (ops : List dict_op) (d : onion_dict),
    invar d.root ∧ WBST d.root →
    invar (ops.foldl run_op d).root ∧ WBST (ops.foldl run_op d).root
  | [], _, h => h
  | op :: ops, d, h => run_ops_invar ops _ (run_op_preserves d op h)

end onion_dict_node

/-! ### The claims -/

/-- C1, counterexample: the binary-search-tree property as claimed — all keys
in a node's left subtree strictly less than the node's key — fails on the
code: after the three insertions of the key "a" into an empty container the
root's left subtree holds an equal key, because the split rotation moves an
equal key (which insertion routes to the right) into a left subtree. -/
theorem C1_counterexample :
    ¬ SBST (run_ops [.add [97] [120] 0, .add [97] [121] 0,
      .add [97] [122] 0]).root := by
  decide

/-- C1, amended: for every sequence of add and remove operations starting
from the empty container, the resulting tree (hence the tree after each
operation of any sequence) satisfies the AA-tree level invariants and the
binary-search-tree property weakened on the left to less-or-equal: all keys
in a node's left subtree are less-or-equal to the node's key, all keys in
its right subtree greater-or-equal. -/
theorem C1_amended_invariants (ops : List dict_op) :
    invar (run_ops ops).root ∧ WBST (run_ops ops).root :=
  run_ops_invar ops onion_dict_new ⟨trivial, trivial⟩

/-- C2: onion_dict_remove returns the success code 1 for every container and
every key, whether or not a node with that key exists. -/
theorem C2_remove_always_returns_one (d : onion_dict) (key : CStr) :
    (onion_dict_remove d key).2.2 = 1 := rfl

/-- C3: on a container satisfying the AA-tree level invariants, removing a
key that is present in no node leaves the container completely unchanged
(same nodes, data, structure and levels) and frees nothing; the bottom-up
rebalancing steps along the unsuccessful search path do not alter the
tree. -/
theorem C3_remove_absent_is_noop (d : onion_dict) (key : CStr)
    (hinv : invar d.root) (hkey : key ∉ keysOf d.root) :
    (onion_dict_remove d key).1 = d ∧ (onion_dict_remove d key).2.1 = [] := by
  have h := remove_absent key hinv hkey
  obtain ⟨root⟩ := d
  constructor
  · show onion_dict.mk (onion_dict_node_remove root key).1 =
      onion_dict.mk root
    rw [h]
  · show (onion_dict_node_remove root key).2 = []
    rw [h]

theorem C3_witness :
    invar (onion_dict.mk
      (.node ⟨[97], [120], 0⟩ 1 .nil .nil)).root ∧
    [98] ∉ keysOf (onion_dict.mk
      (.node ⟨[97], [120], 0⟩ 1 .nil .nil)).root ∧
    ((onion_dict_remove
        (onion_dict.mk (.node ⟨[97], [120], 0⟩ 1 .nil .nil)) [98]).1 =
      onion_dict.mk (.node ⟨[97], [120], 0⟩ 1 .nil .nil) ∧
     (onion_dict_remove
        (onion_dict.mk (.node ⟨[97], [120], 0⟩ 1 .nil .nil)) [98]).2.1 =
      []) :=
  ⟨by decide, by decide,
    C3_remove_absent_is_noop _ _ (by decide) (by decide)⟩

/-- C4: every onion_dict_add creates exactly one new node carrying exactly
the given data — the entry multiset after the insertion is the old one plus
the new entry, even when an equal key is present, so nothing is updated in
place — and consequently after any sequence of k insertions into a fresh
container with no removals, onion_dict_count returns exactly k. -/
theorem C4_add_inserts_new_node_and_count :
    (∀ (d : onion_dict) (key value : CStr) (flags : Nat),
      ((entries (onion_dict_add d key value flags).root :
          Multiset onion_dict_node_data) =
        onion_dict_set_node_data key value flags ::ₘ ↑(entries d.root))) ∧
    (∀ items : List (CStr × CStr × Nat),
      onion_dict_count (items.foldl
        (fun d i => onion_dict_add d i.1 i.2.1 i.2.2) onion_dict_new) =
        items.length) := by
  constructor
  · intro d key value flags
    rw [show (onion_dict_add d key value flags).root =
      onion_dict_node_add d.root (onion_dict_set_node_data key value flags)
      from rfl]
    rw [Multiset.cons_coe]
    exact Multiset.coe_eq_coe.2 (entries_add_perm _ _)
  · have main : ∀ (items : List (CStr × CStr × Nat)) (d : onion_dict),
        onion_dict_count (items.foldl
          (fun d i => onion_dict_add d i.1 i.2.1 i.2.2) d) =
          onion_dict_count d + items.length := by
      intro items
      induction items with
      | nil => intro d; simp
      | cons i is ihh =>
        intro d
        simp only [List.foldl_cons, ihh, count_add, List.length_cons]
        omega
    intro items
    rw [main items onion_dict_new]
    rw [show onion_dict_count onion_dict_new = 0 from rfl]
    omega

/-- C5, counterexample: getting a key immediately after adding it does not
always return the value just inserted: when the key was already present, the
lookup finds the older equal-key node first.  Adding "a" -> "x" and then
"a" -> "y" to an empty container and getting "a" returns "x", not the
just-inserted "y". -/
theorem C5_counterexample :
    onion_dict_get (onion_dict_add (onion_dict_add onion_dict_new
        [97] [120] 0) [97] [121] 0) [97] = some [120] ∧
      some ([120] : CStr) ≠ some [121] := by
  decide

/-- C5, amended: for every container with the weak binary-search-tree
property and every key not already present in it, onion_dict_get
immediately after onion_dict_add of that key returns the value just
inserted. -/
theorem C5_amended_get_after_add (d : onion_dict) (key value : CStr)
    (flags : Nat) (hw : WBST d.root) (hk : key ∉ keysOf d.root) :
    onion_dict_get (onion_dict_add d key value flags) key = some value := by
  have hw' : WBST (onion_dict_node_add d.root
      (onion_dict_set_node_data key value flags)) := wbst_add _ hw
  have hmem : key ∈ keysOf (onion_dict_node_add d.root
      (onion_dict_set_node_data key value flags)) :=
    mem_keysOf_add.2 (Or.inl rfl)
  have hsome := find_isSome_of_mem hw' hmem
  rw [get_eq]
  rw [show (onion_dict_add d key value flags).root =
    onion_dict_node_add d.root (onion_dict_set_node_data key value flags)
    from rfl]
  cases hf : onion_dict_find_node (onion_dict_node_add d.root
      (onion_dict_set_node_data key value flags)) key with
  | none => rw [hf] at hsome; simp at hsome
  | some dE =>
    obtain ⟨hm, hkeq⟩ := find_some_mem hf
    have hor : dE = onion_dict_set_node_data key value flags ∨
        dE ∈ entries d.root := by
      have := (entries_add_perm d.root _).mem_iff.1 hm
      simpa using this
    rcases hor with rfl | hmem2
    · rfl
    · exact absurd
        (hkeq ▸ List.mem_map_of_mem onion_dict_node_data.key hmem2) hk

theorem C5_witness :
    WBST (onion_dict_new).root ∧ [97] ∉ keysOf (onion_dict_new).root ∧
    onion_dict_get (onion_dict_add onion_dict_new [97] [120] 5) [97] =
      some [120] :=
  ⟨by decide, by decide,
    C5_amended_get_after_add onion_dict_new [97] [120] 5
      (by decide) (by decide)⟩

/-- C6: on a container with the weak binary-search-tree property, the
preorder traversal invokes the visitor exactly count-many times, once per
entry, with the in-order (left, node, right) sequence of (key, value)
pairs, whose keys are non-decreasing in the lexicographic order; on an
empty container the visitor is invoked zero times.  The traversal is a pure
function of the tree and performs no mutation. -/
theorem C6_preorder_inorder_visits (d : onion_dict) (hw : WBST d.root) :
    (onion_dict_preorder d).length = onion_dict_count d ∧
    onion_dict_preorder d =
      (entries d.root).map (fun e => (e.key, e.value)) ∧
    List.Sorted keyLe ((onion_dict_preorder d).map Prod.fst) ∧
    (d.root = .nil → onion_dict_preorder d = []) := by
  have he : onion_dict_preorder d =
      (entries d.root).map (fun e => (e.key, e.value)) := by
    rw [dict_preorder_eq, preorder_eq_entries]
  refine ⟨?_, he, ?_, ?_⟩
  · rw [he, count_eq_entries]
    simp
  · rw [he]
    rw [show ((entries d.root).map
        (fun e => (e.key, e.value))).map Prod.fst = keysOf d.root from by
      simp [keysOf]]
    exact (wbst_iff_sorted _).1 hw
  · intro h
    rw [he, h]
    rfl

theorem C6_witness :
    WBST (onion_dict.mk (.node ⟨[97], [120], 0⟩ 1 .nil .nil)).root ∧
    ((onion_dict_preorder
        (onion_dict.mk (.node ⟨[97], [120], 0⟩ 1 .nil .nil))).length =
      onion_dict_count
        (onion_dict.mk (.node ⟨[97], [120], 0⟩ 1 .nil .nil)) ∧
     List.Sorted keyLe ((onion_dict_preorder
        (onion_dict.mk (.node ⟨[97], [120], 0⟩ 1 .nil .nil))).map
          Prod.fst)) :=
  ⟨by decide,
    (C6_preorder_inorder_visits _ (by decide)).1,
    (C6_preorder_inorder_visits _ (by decide)).2.2.1⟩

/-- C7: on a container with the weak binary-search-tree property, for every
key that occurs in exactly one entry, onion_dict_remove of that key followed
by onion_dict_get of the same key returns NULL (not found). -/
theorem C7_remove_then_get_none (d : onion_dict) (key : CStr)
    (hw : WBST d.root)
    (hone : Multiset.count key (keysOf d.root : Multiset CStr) = 1) :
    onion_dict_get (onion_dict_remove d key).1 key = none := by
  have hmem : key ∈ keysOf d.root := by
    rw [← Multiset.mem_coe, ← Multiset.count_pos]
    omega
  obtain ⟨-, meq, -⟩ := keysOf_remove_master d.root key hw
  have heq := meq hmem
  have hcount := congrArg (Multiset.count key) heq
  rw [Multiset.count_add, Multiset.count_singleton_self] at hcount
  have hnot : key ∉ keysOf (onion_dict_node_remove d.root key).1 := by
    intro hmm
    have : 0 < Multiset.count key
        (keysOf (onion_dict_node_remove d.root key).1 : Multiset CStr) :=
      Multiset.count_pos.2 (Multiset.mem_coe.2 hmm)
    omega
  rw [get_eq]
  rw [show (onion_dict_remove d key).1.root =
    (onion_dict_node_remove d.root key).1 from rfl]
  rw [find_eq_none_of_not_mem hnot]
  rfl

theorem C7_witness :
    WBST (onion_dict.mk (.node ⟨[97], [120], 0⟩ 1 .nil .nil)).root ∧
    Multiset.count [97] (keysOf (onion_dict.mk
      (.node ⟨[97], [120], 0⟩ 1 .nil .nil)).root : Multiset CStr) = 1 ∧
    onion_dict_get (onion_dict_remove
      (onion_dict.mk (.node ⟨[97], [120], 0⟩ 1 .nil .nil)) [97]).1 [97] =
      none :=
  ⟨by decide, by decide,
    C7_remove_then_get_none _ _ (by decide) (by decide)⟩

/-- C8: whenever decrease_level is invoked during removal's bottom-up
rebalancing — so with the node's stored level at least the recomputed value
and the right child's level not above the node's — it sets the node's level
to one more than the minimum of its children's levels (a missing child
counting as level 0) and clamps the right child's level down to that same
value when it was higher, changing nothing else. -/
theorem C8_decrease_level_recomputes (d : onion_dict_node_data) (k : Nat)
    (l r : onion_dict_node)
    (h1 : min (lvl l) (lvl r) + 1 ≤ k) (h2 : lvl r ≤ k) :
    decrease_level (.node d k l r) =
      .node d (min (lvl l) (lvl r) + 1) l
        (withLevel r (min (lvl r) (min (lvl l) (lvl r) + 1))) :=
  decrease_level_spec d k l r h1 h2

theorem C8_witness :
    min (lvl (onion_dict_node.node ⟨[97], [120], 0⟩ 1 .nil .nil))
        (lvl (onion_dict_node.node ⟨[98], [121], 0⟩ 3 .nil .nil)) + 1 ≤ 3 ∧
    lvl (onion_dict_node.node ⟨[98], [121], 0⟩ 3 .nil .nil) ≤ 3 ∧
    decrease_level (.node ⟨[99], [122], 0⟩ 3
        (.node ⟨[97], [120], 0⟩ 1 .nil .nil)
        (.node ⟨[98], [121], 0⟩ 3 .nil .nil)) =
      .node ⟨[99], [122], 0⟩
        (min (lvl (onion_dict_node.node ⟨[97], [120], 0⟩ 1 .nil .nil))
          (lvl (onion_dict_node.node ⟨[98], [121], 0⟩ 3 .nil .nil)) + 1)
        (.node ⟨[97], [120], 0⟩ 1 .nil .nil)
        (withLevel (.node ⟨[98], [121], 0⟩ 3 .nil .nil)
          (min (lvl (onion_dict_node.node ⟨[98], [121], 0⟩ 3 .nil .nil))
            (min (lvl (onion_dict_node.node ⟨[97], [120], 0⟩ 1 .nil .nil))
              (lvl (onion_dict_node.node ⟨[98], [121], 0⟩ 3 .nil .nil))
                + 1))) :=
  ⟨by decide, by decide,
    C8_decrease_level_recomputes ⟨[99], [122], 0⟩ 3
      (.node ⟨[97], [120], 0⟩ 1 .nil .nil)
      (.node ⟨[98], [121], 0⟩ 3 .nil .nil) (by decide) (by decide)⟩

/-- C9: when the freeable memory of a container (the key/value byte strings
its per-flag free routine would release, each identified by its contents
under the no-aliasing hypothesis that they are pairwise distinct) has no
duplicates, then any single removal releases each memory at most once: the
released list has no duplicates, the remaining tree's freeable memory has
no duplicates, the two are disjoint, and together they account exactly for
the container's freeable memory before the removal — so in particular the
donor-flag clearing prevents any double free of relocated key/value
memory. -/
theorem C9_remove_releases_at_most_once (d : onion_dict) (key : CStr)
    (h : ((freeables d.root : Multiset CStr)).Nodup) :
    ((onion_dict_remove d key).2.1 : Multiset CStr).Nodup ∧
    ((freeables (onion_dict_remove d key).1.root : Multiset CStr)).Nodup ∧
    Disjoint ((onion_dict_remove d key).2.1 : Multiset CStr)
      (↑(freeables (onion_dict_remove d key).1.root) : Multiset CStr) ∧
    (freeables d.root : Multiset CStr) =
      ↑((onion_dict_remove d key).2.1) +
        ↑(freeables (onion_dict_remove d key).1.root) := by
  have hacc := freeables_remove d.root key
  rw [show (onion_dict_remove d key).2.1 =
    (onion_dict_node_remove d.root key).2 from rfl]
  rw [show (onion_dict_remove d key).1.root =
    (onion_dict_node_remove d.root key).1 from rfl]
  rw [hacc] at h
  obtain ⟨n1, n2, hd⟩ := Multiset.nodup_add.1 h
  exact ⟨n1, n2, hd, hacc⟩

theorem C9_witness :
    ((freeables (onion_dict.mk (.node ⟨[97], [120], 3⟩ 1 .nil .nil)).root :
        Multiset CStr)).Nodup ∧
    ((onion_dict_remove
        (onion_dict.mk (.node ⟨[97], [120], 3⟩ 1 .nil .nil)) [97]).2.1 :
      Multiset CStr).Nodup :=
  ⟨by decide,
    (C9_remove_releases_at_most_once
      (onion_dict.mk (.node ⟨[97], [120], 3⟩ 1 .nil .nil)) [97]
      (by decide)).1⟩

/-- C10: skew and split each return a tree with exactly the same in-order
sequence of entries as their input (no node or entry created, dropped or
modified), and each returns its argument unchanged unless it fires: skew
unless the node's left child exists and has the node's level, split unless
the node's right grandchild exists and has the node's level. -/
theorem C10_skew_split_preserve_entries :
    (∀ t : onion_dict_node, entries (skew t) = entries t) ∧
    (∀ t : onion_dict_node, entries (split t) = entries t) ∧
    (∀ (d : onion_dict_node_data) (k : Nat) (l r : onion_dict_node),
      ¬ (l ≠ .nil ∧ lvl l = k) → skew (.node d k l r) = .node d k l r) ∧
    (∀ (d : onion_dict_node_data) (k : Nat) (l r : onion_dict_node),
      ¬ (rightT r ≠ .nil ∧ lvl (rightT r) = k) →
        split (.node d k l r) = .node d k l r) := by
  refine ⟨entries_skew, entries_split, ?_, ?_⟩
  · intro d k l r h
    cases l with
    | nil => simp [skew]
    | node dl kl ll lr =>
      have : kl ≠ k := by
        intro he
        exact h ⟨by simp, by simp [he]⟩
      simp [skew, this]
  · intro d k l r h
    cases r with
    | nil => simp [split]
    | node dr kr rl rr =>
      cases rr with
      | nil => simp [split]
      | node drr krr rrl rrr =>
        have : k ≠ krr := by
          intro he
          exact h ⟨by simp, by simp [he]⟩
        simp [split, this]

theorem C10_witness :
    entries (skew (.node ⟨[97], [120], 0⟩ 1 .nil .nil)) =
      entries (onion_dict_node.node ⟨[97], [120], 0⟩ 1 .nil .nil) ∧
    ¬ ((onion_dict_node.nil : onion_dict_node) ≠ .nil ∧
        lvl (onion_dict_node.nil) = 1) ∧
    skew (.node ⟨[97], [120], 0⟩ 1 .nil .nil) =
      .node ⟨[97], [120], 0⟩ 1 .nil .nil ∧
    split (.node ⟨[97], [120], 0⟩ 1 .nil .nil) =
      .node ⟨[97], [120], 0⟩ 1 .nil .nil :=
  ⟨C10_skew_split_preserve_entries.1 _, by decide,
    C10_skew_split_preserve_entries.2.2.1 ⟨[97], [120], 0⟩ 1 .nil .nil
      (by decide),
    C10_skew_split_preserve_entries.2.2.2 ⟨[97], [120], 0⟩ 1 .nil .nil
      (by decide)⟩

end Onion
